import Mathlib

/-!
Verification of the tree-walking evaluator in `src/src/engine.rs` (the rhai
scripting engine's core).  The data model and the operations are shallowly
embedded: pure Rust functions become Lean functions, `&mut` state threading
becomes explicit state passing, and the external collaborators (call
resolution, module resolver, iterator registry) become oracle fields of the
`Engine` structure, mirroring the contracts stated in the specification.
-/

namespace Rhai

/-- Dynamic value: the tagged variant the evaluator dispatches on
(`Dynamic` / `Union` from the `any` collaborator, as described by the spec's
data model): Unit, Bool, Int, Char, Str, Array, Map, FnPtr, Variant
(opaque host value identified by a type tag). -/
inductive Dyn where
  | unit : Dyn
  | bool (b : Bool) : Dyn
  | int (i : Int) : Dyn
  | char (c : Char) : Dyn
  | str (s : String) : Dyn
  | array (a : List Dyn) : Dyn
  | map (m : List (String × Dyn)) : Dyn
  | fnPtr (name : String) : Dyn
  | variant (tag : Nat) : Dyn

instance : Inhabited Dyn := ⟨Dyn.unit⟩

/-- Evaluation error (`EvalAltResult`), positions dropped (source-position
tracking is attribution only and no claim depends on it). -/
inductive EvalErr where
  | variableNotFound (name : String)
  | moduleNotFound (name : String)
  | unboundedThis
  | assignmentToConstant (name : String)
  | assignmentToUnknownLHS
  | numericIndexExpr
  | stringIndexExpr
  | arrayBounds (len : Nat) (idx : Int)
  | stringBounds (len : Nat) (idx : Int)
  | charMismatch
  | indexingType (name : String)
  | dotExpr (name : String)
  | functionNotFound (name : String)
  | logicGuard
  | booleanArgMismatch (op : String)
  | inExpr
  | importExpr
  | errorFor
  | loopBreak (isBreak : Bool)
  | ret (v : Dyn)
  | errorRuntime (msg : String)
  | tooManyOperations
  | tooManyModules
  | dataTooLarge (category : String) (limit : Nat) (actual : Nat)
  | terminated
  | panicUnreachable

/-- Scope entry type (`ScopeEntryType`): `Normal` or `Constant`. -/
inductive EntryType where
  | normal
  | constant
deriving DecidableEq

/-- One scope slot: `(name, type, alias?, value)` per the spec's data model
(the `Scope` collaborator). -/
structure ScopeEntry where
  name : String
  typ : EntryType
  exportAlias : Option String
  val : Dyn

/-- Per-invocation evaluator state (`State` in engine.rs). -/
structure State where
  alwaysSearch : Bool
  scopeLevel : Nat
  operations : Nat
  modules : Nat
deriving DecidableEq

/-- Type tag of a value (`Dynamic::type_id` view: only used to key the
iterator registry). -/
def Dyn.typeId : Dyn → Nat
  | .unit => 0
  | .bool _ => 1
  | .int _ => 2
  | .char _ => 3
  | .str _ => 4
  | .array _ => 5
  | .map _ => 6
  | .fnPtr _ => 7
  | .variant t => 8 + t

/-- Pretty type name of a value (used in `IndexingType` errors). -/
def Dyn.typeName : Dyn → String
  | .unit => "()"
  | .bool _ => "bool"
  | .int _ => "i64"
  | .char _ => "char"
  | .str _ => "string"
  | .array _ => "array"
  | .map _ => "map"
  | .fnPtr _ => "Fn"
  | .variant _ => "variant"

/-- Modelled from the spec: `Dynamic::as_bool` (the `any` collaborator is not
under src/; the spec says conversions between variants are explicit, so a
non-Bool value does not coerce). -/
def Dyn.asBool : Dyn → Except Unit Bool
  | .bool b => .ok b
  | _ => .error ()

/-- Modelled from the spec: `Dynamic::as_char` (explicit conversion; only a
Char value succeeds). -/
def Dyn.asChar : Dyn → Except Unit Char
  | .char c => .ok c
  | _ => .error ()

/-- Modelled from the spec: `Dynamic::as_int` (explicit conversion; only an
Int value succeeds). -/
def Dyn.asInt : Dyn → Except Unit Int
  | .int i => .ok i
  | _ => .error ()

/-- Modelled from the spec: `Dynamic::take_string` (explicit conversion; only
a Str value succeeds). -/
def Dyn.takeString : Dyn → Except Unit String
  | .str s => .ok s
  | _ => .error ()

/-- The engine configuration together with the external collaborator seams
(function-call resolution, iterator registry, module resolver, op-assignment
built-ins), which the spec places out of scope and which the evaluator only
consumes through these contracts. -/
structure Engine where
  maxOperations : Nat
  maxModules : Nat
  maxStringSize : Nat
  maxArraySize : Nat
  maxMapSize : Nat
  progress : Option (Nat → Bool)
  /-- Modelled from the spec: the call-resolution collaborator
  (`exec_fn_call` / `call_fn_raw` in fn_call.rs, not under src/): looks up a
  function by name and argument values; `none` means no such function. -/
  callFn : String → List Dyn → Option (Except EvalErr Dyn)
  /-- Modelled from the spec: the iterator registry
  (`global_module.get_iter` ∪ `packages.get_iter`): an iterator factory per
  type tag, producing the sequence of loop values. -/
  getIter : Nat → Option (Dyn → List Dyn)
  /-- Modelled from the spec: the module resolver collaborator
  (`resolve(engine, path, pos) → Module`); modules are opaque here. -/
  resolver : Option (String → Except EvalErr Unit)
  /-- Modelled from the spec: the op-assignment seam: a registered native
  `Method` function or `run_builtin_op_assignment` from fn_call.rs (not under
  src/); `some` yields the new LHS value, `none` means neither applies. -/
  opAssign : String → Dyn → Dyn → Option (Except EvalErr Dyn)

/-- Operation governor (`Engine::inc_operations`, engine.rs:1804-1824).
The counter is incremented in place first (hence it is returned even on the
error path); then if `max_operations > 0` and the count exceeds it the
governor fails `TooManyOperations`; otherwise the optional progress callback
is polled with the current count and a `false` return fails `Terminated`. -/
def Engine.incOperations (eng : Engine) (st : State) : State × Option EvalErr :=
  let st1 : State := { st with operations := st.operations + 1 }
  if 0 < eng.maxOperations ∧ eng.maxOperations < st1.operations then
    (st1, some .tooManyOperations)
  else
    match eng.progress with
    | some p => if p st1.operations then (st1, none) else (st1, some .terminated)
    | none => (st1, none)

/-- Recursive data-size calculation (`calc_size` inside
`Engine::check_data_size`, engine.rs:1708-1757): returns
`(arrays, maps, stringLen)`.  Array elements that are themselves arrays or
maps contribute their recursive counts, any other element counts one array
leaf; map values likewise, any other value counting one map entry; a string
contributes its length; all other values are zero. -/
def calcSize : Dyn → Nat × Nat × Nat
  | .array [] => (0, 0, 0)
  | .array (.array a :: rest) =>
    let q := calcSize (.array a)
    let r := calcSize (.array rest)
    (q.1 + r.1, q.2.1 + r.2.1, 0)
  | .array (.map m :: rest) =>
    let q := calcSize (.map m)
    let r := calcSize (.array rest)
    (q.1 + r.1, q.2.1 + r.2.1, 0)
  | .array (_ :: rest) =>
    let r := calcSize (.array rest)
    (1 + r.1, r.2.1, 0)
  | .map [] => (0, 0, 0)
  | .map ((_, .array a) :: rest) =>
    let q := calcSize (.array a)
    let r := calcSize (.map rest)
    (q.1 + r.1, q.2.1 + r.2.1, 0)
  | .map ((_, .map m) :: rest) =>
    let q := calcSize (.map m)
    let r := calcSize (.map rest)
    (q.1 + r.1, q.2.1 + r.2.1, 0)
  | .map (_ :: rest) =>
    let r := calcSize (.map rest)
    (r.1, 1 + r.2.1, 0)
  | .str s => (0, 0, s.length)
  | _ => (0, 0, 0)
termination_by d => sizeOf d
decreasing_by all_goals (simp_wf <;> omega)

/-- Size governor (`Engine::check_data_size`, engine.rs:1695-1800).  If no
cap is configured the result passes through; errors pass through; a result
value whose shape's cap is zero bypasses the calculation; otherwise the three
recursive totals are each compared against their respective configured
limits, in the order string, array, map. -/
def Engine.checkDataSize (eng : Engine) (result : Except EvalErr Dyn) :
    Except EvalErr Dyn :=
  if eng.maxStringSize + eng.maxArraySize + eng.maxMapSize = 0 then result
  else
    match result with
    | .error e => .error e
    | .ok v =>
      let gate : Bool :=
        match v with
        | .str _ => 0 < eng.maxStringSize
        | .array _ => 0 < eng.maxArraySize
        | .map _ => 0 < eng.maxMapSize
        | _ => false
      if gate then
        let r := calcSize v
        if eng.maxStringSize < r.2.2 then
          .error (.dataTooLarge "Length of string" eng.maxStringSize r.2.2)
        else if eng.maxArraySize < r.1 then
          .error (.dataTooLarge "Size of array" eng.maxArraySize r.1)
        else if eng.maxMapSize < r.2.1 then
          .error (.dataTooLarge "Number of properties in object map"
            eng.maxMapSize r.2.1)
        else .ok v
      else .ok v

/-- Mutation target (`Target` in engine.rs:99-107).  `ref` aliases a live
value (writes propagate), `value` is an owned temporary (writes are
rejected), `stringChar` is a character inside a string; the constructor
carries the string's characters directly, reflecting the source invariant
that `StringChar` is built only from a `Union::Str` value
(engine.rs:1033-1045), together with the character offset and the extracted
character. -/
inductive Tgt where
  | ref (v : Dyn)
  | value (v : Dyn)
  | stringChar (s : List Char) (idx : Nat) (ch : Dyn)

/-- Write through a target (`Target::set_value`, engine.rs:151-178).
A `ref` write replaces the aliased value; a `value` write fails
`AssignmentToUnknownLHS`; a `stringChar` write requires the new value to be a
char (else `CharMismatch`), reads the character currently at the carried
offset and rebuilds the string if and only if it differs from the new
character.  The returned Bool records whether the string was rebuilt. -/
def Tgt.setValue (t : Tgt) (newVal : Dyn) : Except EvalErr (Tgt × Bool) :=
  match t with
  | .ref _ => .ok (.ref newVal, false)
  | .value _ => .error .assignmentToUnknownLHS
  | .stringChar s idx ch =>
    match newVal.asChar with
    | .error _ => .error .charMismatch
    | .ok c =>
      let old := s.getD idx default
      if old ≠ c then .ok (.stringChar (s.set idx c) idx ch, true)
      else .ok (.stringChar s idx ch, false)

/-- Modelled from the spec: `Scope::get_index` (scope.rs is not under src/):
linear search from the top of the scope for the most recent slot carrying
`name`, returning its index from the bottom. -/
def scopeGetIndex (scope : List ScopeEntry) (name : String) : Option Nat :=
  match scope.reverse.findIdx? (fun e => e.name = name) with
  | some j => some (scope.length - 1 - j)
  | none => none

/-- Where a scope search landed: the this-binding, or a slot of the scope. -/
inductive Found where
  | thisF (v : Dyn)
  | slot (i : Nat) (e : ScopeEntry)

/-- Variable search within the scope (`search_scope_only`,
engine.rs:488-523).  `this` resolves to the this-binding or fails
`UnboundedThis`; otherwise, when `always_search` is off and the expression
carries a cached offset `k`, the slot is `scope[scope.len() - k]` with no
name comparison (an out-of-range offset would panic in the source, modelled
as `panicUnreachable`); otherwise a linear name search from the top, failing
`VariableNotFound` when the name is absent. -/
def searchScopeOnly (scope : List ScopeEntry) (st : State) (thisPtr : Option Dyn)
    (name : String) (cachedIdx : Option Nat) : Except EvalErr Found :=
  if name = "this" then
    match thisPtr with
    | some v => .ok (.thisF v)
    | none => .error .unboundedThis
  else
    match (if st.alwaysSearch then none else cachedIdx) with
    | some k =>
      match scope[scope.length - k]? with
      | some e => .ok (.slot (scope.length - k) e)
      | none => .error .panicUnreachable
    | none =>
      match scopeGetIndex scope name with
      | some i =>
        match scope[i]? with
        | some e => .ok (.slot i e)
        | none => .error .panicUnreachable
      | none => .error (.variableNotFound name)

/-- Association-list lookup for `Map` values (key order is irrelevant per the
spec's data model). -/
def mapGet (m : List (String × Dyn)) (k : String) : Option Dyn :=
  (m.find? (fun kv => kv.1 = k)).map (fun kv => kv.2)

/-- Association-list insert-or-replace for `Map` values. -/
def mapInsert : List (String × Dyn) → String → Dyn → List (String × Dyn)
  | [], k, v => [(k, v)]
  | kv :: rest, k, v =>
    if kv.1 = k then (k, v) :: rest else kv :: mapInsert rest k v

/-- Call through the call-resolution seam with an optional default value
(`call_fn_raw` / `exec_fn_call` contract: when no function matches, the
default value is returned if supplied, else `FunctionNotFound`). -/
def callFnRaw (eng : Engine) (name : String) (args : List Dyn)
    (defVal : Option Dyn) : Except EvalErr Dyn :=
  match eng.callFn name args with
  | some r => r
  | none =>
    match defVal with
    | some d => .ok d
    | none => .error (.functionNotFound name)

/-- The shape of target produced by one indexed access, together with enough
positional information for the caller to route writes back into the parent
container (the source threads `&mut` aliases instead). -/
inductive Got where
  | refArr (i : Nat) (elem : Dyn)
  | refMap (key : String) (elem : Dyn)
  | valUnit
  | strChar (off : Nat) (ch : Char)
  | owned (v : Dyn)

/-- Indexed access on a base value (`Engine::get_indexed_mut`,
engine.rs:974-1078).  Ticks the operation governor, then: array indexing
needs an int index (`NumericIndexExpr`), in range (`ArrayBounds`, also for
negative); map indexing needs a string key (`StringIndexExpr`), with
`create` inserting a default entry and a plain read of a missing key giving
an owned unit; string indexing needs an int index, in range
(`StringBounds`, also for negative), producing a string-char target; any
other base goes through the registered `index$get$` function, an absent
function mapping to `IndexingType`.  Returns the produced target view and
the (possibly `create`-extended) parent value. -/
def Engine.getIndexedMut (eng : Engine) (st : State) (target : Dyn) (idx : Dyn)
    (create : Bool) : State × Except EvalErr (Got × Dyn) :=
  match eng.incOperations st with
  | (st1, some er) => (st1, .error er)
  | (st1, none) =>
    match target with
    | .array arr =>
      match idx.asInt with
      | .error _ => (st1, .error .numericIndexExpr)
      | .ok i =>
        if 0 ≤ i then
          match arr[i.toNat]? with
          | some elem => (st1, .ok (.refArr i.toNat elem, target))
          | none => (st1, .error (.arrayBounds arr.length i))
        else (st1, .error (.arrayBounds arr.length i))
    | .map m =>
      if create then
        match idx with
        | .str k =>
          match mapGet m k with
          | some elem => (st1, .ok (.refMap k elem, target))
          | none => (st1, .ok (.refMap k .unit, .map (mapInsert m k .unit)))
        | _ => (st1, .error .stringIndexExpr)
      else
        match idx with
        | .str k =>
          match mapGet m k with
          | some elem => (st1, .ok (.refMap k elem, target))
          | none => (st1, .ok (.valUnit, target))
        | _ => (st1, .error .stringIndexExpr)
    | .str sVal =>
      match idx.asInt with
      | .error _ => (st1, .error .numericIndexExpr)
      | .ok i =>
        if 0 ≤ i then
          match sVal.toList[i.toNat]? with
          | some ch => (st1, .ok (.strChar i.toNat ch, target))
          | none => (st1, .error (.stringBounds sVal.length i))
        else (st1, .error (.stringBounds sVal.length i))
    | _ =>
      match callFnRaw eng "index$get$" [target, idx] none with
      | .ok v => (st1, .ok (.owned v, target))
      | .error er =>
        match er with
        | .functionNotFound _ => (st1, .error (.indexingType target.typeName))
        | _ => (st1, .error er)

/-- Replace element `i` of an array value. -/
def dynSetArr (d : Dyn) (i : Nat) (v : Dyn) : Dyn :=
  match d with
  | .array arr => .array (arr.set i v)
  | _ => d

/-- Insert-or-replace entry `k` of a map value. -/
def dynSetMap (d : Dyn) (k : String) (v : Dyn) : Dyn :=
  match d with
  | .map m => .map (mapInsert m k v)
  | _ => d

/-- Replace the character at `off` of a string value if and only if it
differs from `c` (mirrors the `StringChar` write path of
`Target::set_value`). -/
def dynSetStrChar (d : Dyn) (off : Nat) (c : Char) : Dyn :=
  match d with
  | .str sv =>
    let chars := sv.toList
    if chars.getD off c ≠ c then .str (String.mk (chars.set off c)) else d
  | _ => d

/-- Read a produced target as a value (`Target::clone_into_dynamic`). -/
def Got.cloneIntoDyn : Got → Dyn
  | .refArr _ v => v
  | .refMap _ v => v
  | .valUnit => .unit
  | .strChar _ ch => .char ch
  | .owned v => v

/-- Phase 2 of index-chain evaluation
(`Engine::eval_dot_index_chain_helper` restricted to `ChainType::Index`,
engine.rs:596-667), made functional: one collected index value is consumed
per level.  At an intermediate level the produced target is descended into,
and container targets (array element, present map entry) have the updated
child routed back (the source does this through `&mut` aliasing), while
owned targets (missing map key, string character, indexer result) drop
updates made below them.  At the final level, a read clones the target out;
a write applies `Target::set_value` semantics to reference targets, and for
an owned target calls the registered `index$set$` function, swallowing only
its absence (the getter-produced value is read-only); when there is no index
getter at all (`IndexingType`), `index$set$` is tried without that
swallowing.  Returns the (possibly updated) base value with the result. -/
def chainHelper (eng : Engine) (st : State) (target : Dyn) (idxs : List Dyn)
    (newVal : Option Dyn) : State × Except EvalErr (Dyn × Dyn) :=
  match idxs with
  | [] => (st, .error .panicUnreachable)
  | [idx] =>
    match newVal with
    | some nv =>
      match eng.getIndexedMut st target idx true with
      | (st1, .error er) =>
        match er with
        | .indexingType _ =>
          match callFnRaw eng "index$set$" [target, idx, nv] none with
          | .error e2 => (st1, .error e2)
          | .ok _ => (st1, .ok (.unit, target))
        | _ => (st1, .error er)
      | (st1, .ok (got, parent1)) =>
        match got with
        | .refArr i _ => (st1, .ok (.unit, dynSetArr parent1 i nv))
        | .refMap k _ => (st1, .ok (.unit, dynSetMap parent1 k nv))
        | .strChar off _ =>
          match nv.asChar with
          | .error _ => (st1, .error .charMismatch)
          | .ok c => (st1, .ok (.unit, dynSetStrChar parent1 off c))
        | .valUnit =>
          match callFnRaw eng "index$set$" [target, idx, nv] none with
          | .error (.functionNotFound fname) =>
            if fname = "index$set$" then (st1, .ok (.unit, parent1))
            else (st1, .error (.functionNotFound fname))
          | .error e2 => (st1, .error e2)
          | .ok _ => (st1, .ok (.unit, parent1))
        | .owned _ =>
          match callFnRaw eng "index$set$" [target, idx, nv] none with
          | .error (.functionNotFound fname) =>
            if fname = "index$set$" then (st1, .ok (.unit, parent1))
            else (st1, .error (.functionNotFound fname))
          | .error e2 => (st1, .error e2)
          | .ok _ => (st1, .ok (.unit, parent1))
    | none =>
      match eng.getIndexedMut st target idx false with
      | (st1, .error er) => (st1, .error er)
      | (st1, .ok (got, parent1)) => (st1, .ok (got.cloneIntoDyn, parent1))
  | idx :: rest =>
    match eng.getIndexedMut st target idx false with
    | (st1, .error er) => (st1, .error er)
    | (st1, .ok (got, parent1)) =>
      match got with
      | .refArr i elem =>
        match chainHelper eng st1 elem rest newVal with
        | (st2, .error er) => (st2, .error er)
        | (st2, .ok (res, elem2)) => (st2, .ok (res, dynSetArr parent1 i elem2))
      | .refMap k elem =>
        match chainHelper eng st1 elem rest newVal with
        | (st2, .error er) => (st2, .error er)
        | (st2, .ok (res, elem2)) => (st2, .ok (res, dynSetMap parent1 k elem2))
      | .valUnit =>
        match chainHelper eng st1 .unit rest newVal with
        | (st2, .error er) => (st2, .error er)
        | (st2, .ok (res, _)) => (st2, .ok (res, parent1))
      | .strChar _ ch =>
        match chainHelper eng st1 (.char ch) rest newVal with
        | (st2, .error er) => (st2, .error er)
        | (st2, .ok (res, _)) => (st2, .ok (res, parent1))
      | .owned v =>
        match chainHelper eng st1 v rest newVal with
        | (st2, .error er) => (st2, .error er)
        | (st2, .ok (res, _)) => (st2, .ok (res, parent1))

/-- Substring containment (Rust `str::contains` with a string needle). -/
def strContainsStr (hay needle : List Char) : Bool :=
  match hay with
  | [] => needle.isEmpty
  | _ :: rest => needle.isPrefixOf hay || strContainsStr rest needle

/-- Linear scan of an array's elements for the `in` operator
(engine.rs:1100-1126): each element is compared with the LHS by dispatching
the `==` operator through the call seam with default value `false`; a result
read as boolean true stops the scan, anything else (including non-boolean
results, read with `unwrap_or(false)`) lets it continue. -/
def inArrayScan (eng : Engine) (lhsVal : Dyn) : List Dyn → Except EvalErr Bool
  | [] => .ok false
  | v :: rest =>
    match callFnRaw eng "==" [lhsVal, v] (some (.bool false)) with
    | .error e => .error e
    | .ok r =>
      if (match r.asBool with | .ok b => b | .error _ => false) then .ok true
      else inArrayScan eng lhsVal rest

/-- Value-level semantics of the `in` operator (`Engine::eval_in_expr`,
engine.rs:1098-1144, after both operands are evaluated): array RHS scans
with the dispatched `==`; map RHS requires a string or char LHS (key
membership, a char keyed by its one-character string); string RHS requires a
string or char LHS (substring / character containment); anything else is
`InExpr`. -/
def inOp (eng : Engine) (lhsVal rhsVal : Dyn) : Except EvalErr Dyn :=
  match rhsVal with
  | .array vs =>
    match inArrayScan eng lhsVal vs with
    | .error e => .error e
    | .ok b => .ok (.bool b)
  | .map m =>
    match lhsVal with
    | .str s => .ok (.bool (m.any (fun kv => kv.1 = s)))
    | .char c => .ok (.bool (m.any (fun kv => kv.1 = c.toString)))
    | _ => .error .inExpr
  | .str rs =>
    match lhsVal with
    | .str s => .ok (.bool (strContainsStr rs.toList s.toList))
    | .char c => .ok (.bool (rs.toList.contains c))
    | _ => .error .inExpr
  | _ => .error .inExpr

mutual
/-- Expression AST (`Expr` from the parser collaborator), restricted to the
shapes the evaluator core handles: literals, variables with an optional
parser-cached scope offset, statement blocks, assignments, index chains,
array and map literals, unqualified function calls with an optional default
value, `in`, and short-circuit and/or.  (Dot chains, module qualifiers,
floats and custom syntax are not exercised by any claim.) -/
inductive Expr where
  | intC (i : Int)
  | charC (c : Char)
  | strC (s : String)
  | fnPtrC (name : String)
  | trueC
  | falseC
  | unitC
  | var (name : String) (cachedIdx : Option Nat)
  | stmtE (s : Stmt)
  | assignment (lhs : Expr) (op : String) (rhs : Expr)
  | index (lhs : Expr) (rhs : Expr)
  | arrayC (elems : List Expr)
  | mapC (elems : List (String × Expr))
  | fnCall (name : String) (args : List Expr) (defVal : Option Dyn)
  | inE (lhs : Expr) (rhs : Expr)
  | andE (lhs : Expr) (rhs : Expr)
  | orE (lhs : Expr) (rhs : Expr)

/-- Statement AST (`Stmt` from the parser collaborator). -/
inductive Stmt where
  | noop
  | exprS (e : Expr)
  | block (body : List Stmt)
  | ifThenElse (guard : Expr) (thenS : Stmt) (elseS : Option Stmt)
  | whileS (guard : Expr) (body : Stmt)
  | loopS (body : Stmt)
  | forS (varName : String) (iterable : Expr) (body : Stmt)
  | continueS
  | breakS
  | returnS (v : Option Expr)
  | throwS (v : Option Expr)
  | letS (name : String) (init : Option Expr)
  | constS (name : String) (init : Expr)
  | importS (path : Expr) (aliasName : String)
  | exportS (ids : List (String × Option String))
end

/-- Modelled from the spec: the parser's `Expr::is_constant` (parser.rs is
not under src/); the spec says constants require statically constant
initializers verified by the parser, and assignment to "any other expression
whose constant-check succeeds" yields `AssignmentToConstant`.  Literals are
constant; array and map literals of constants are constant; `in` over two
constants is constant. -/
def Expr.isConstant : Expr → Bool
  | .intC _ => true
  | .charC _ => true
  | .strC _ => true
  | .fnPtrC _ => true
  | .trueC => true
  | .falseC => true
  | .unitC => true
  | .arrayC [] => true
  | .arrayC (e :: rest) => e.isConstant && (Expr.arrayC rest).isConstant
  | .mapC [] => true
  | .mapC ((_, e) :: rest) => e.isConstant && (Expr.mapC rest).isConstant
  | .inE l r => l.isConstant && r.isConstant
  | _ => false
termination_by e => sizeOf e
decreasing_by all_goals (simp_wf <;> omega)

/-- Modelled from the spec: the parser's `Expr::get_constant_str`, the
display string carried by `AssignmentToConstant` for a constant expression
(only the error kind matters to any claim). -/
def Expr.getConstantStr : Expr → String
  | .strC s => s
  | .charC c => c.toString
  | .intC i => toString i
  | .trueC => "true"
  | .falseC => "false"
  | .unitC => "()"
  | _ => ""

/-- The mutable context threaded through evaluation: the scope stack, the
imports stack (aliases; modules are opaque), the evaluator state, and the
this-binding. -/
structure EState where
  scope : List ScopeEntry
  mods : List String
  st : State
  thisPtr : Option Dyn

/-- Write a value into scope slot `i`, keeping name, type and alias (the
source writes through a `&mut Dynamic` into the slot's value). -/
def scopeSetVal (scope : List ScopeEntry) (i : Nat) (v : Dyn) :
    List ScopeEntry :=
  match scope[i]? with
  | some e => scope.set i { e with val := v }
  | none => scope

/-- Set the export alias of scope slot `i` (`Scope::set_entry_alias`,
modelled from the spec's export contract: tag the slot with the alias). -/
def scopeSetAlias (scope : List ScopeEntry) (i : Nat) (a : String) :
    List ScopeEntry :=
  match scope[i]? with
  | some e => scope.set i { e with exportAlias := some a }
  | none => scope

/-- Process an export list (`Stmt::Export` case of `Engine::eval_stmt`,
engine.rs:1672-1686): each id is located in the scope and tagged with its
alias (the rename when given, else the id); the first missing id aborts with
`VariableNotFound`, keeping the aliases already set. -/
def exportList (scope : List ScopeEntry) :
    List (String × Option String) → Option EvalErr × List ScopeEntry
  | [] => (none, scope)
  | (id, rename) :: rest =>
    match scopeGetIndex scope id with
    | some i => exportList (scopeSetAlias scope i (rename.getD id)) rest
    | none => (some (.variableNotFound id), scope)

/-- One evaluation outcome: `none` models non-termination (fuel ran out),
otherwise the result (a value or a propagating error, with `Return`, `throw`
and loop-break travelling the error channel) and the updated context. -/
abbrev StepOut (α : Type) := Option (Except EvalErr α × EState)

/-- Pass a step's result through the size governor (the
`self.check_data_size(result)` tail of `eval_stmt` and `eval_expr`). -/
def wrapCds (eng : Engine) (out : StepOut Dyn) : StepOut Dyn :=
  match out with
  | none => none
  | some (r, s9) => some (eng.checkDataSize r, s9)

mutual

/-- Statement evaluator (`Engine::eval_stmt`, engine.rs:1410-1691).  Ticks
the operation governor on entry, dispatches on statement kind, and passes
the result through the size governor. -/
def evalStmt (eng : Engine) : Nat → EState → Stmt → StepOut Dyn
  | 0, _, _ => none
  | fuel+1, s0, stmt =>
    match eng.incOperations s0.st with
    | (st0, some er) => some (.error er, { s0 with st := st0 })
    | (st0, none) =>
      let s := { s0 with st := st0 }
      let out : StepOut Dyn :=
        match stmt with
        | .noop => some (.ok .unit, s)
        | .exprS e => evalExpr eng fuel s e
        | .block body =>
          let prevScopeLen := s.scope.length
          let prevModsLen := s.mods.length
          let s1 := { s with st := { s.st with scopeLevel := s.st.scopeLevel + 1 } }
          match evalStmts eng fuel s1 body with
          | none => none
          | some (r, s2) =>
            some (r, { s2 with
              scope := s2.scope.take prevScopeLen
              mods := s2.mods.take prevModsLen
              st := { s2.st with
                scopeLevel := s2.st.scopeLevel - 1
                alwaysSearch := false } })
        | .ifThenElse g t e? =>
          match evalExpr eng fuel s g with
          | none => none
          | some (.error er, s1) => some (.error er, s1)
          | some (.ok gv, s1) =>
            match gv.asBool with
            | .error _ => some (.error .logicGuard, s1)
            | .ok true => evalStmt eng fuel s1 t
            | .ok false =>
              match e? with
              | some es => evalStmt eng fuel s1 es
              | none => some (.ok .unit, s1)
        | .whileS g body => whileLoop eng fuel s g body
        | .loopS body => loopLoop eng fuel s body
        | .forS name iterE body =>
          match evalExpr eng fuel s iterE with
          | none => none
          | some (.error er, s1) => some (.error er, s1)
          | some (.ok iterVal, s1) =>
            match eng.getIter iterVal.typeId with
            | none => some (.error .errorFor, s1)
            | some f =>
              let s2 := { s1 with
                scope := s1.scope ++ [⟨name, .normal, none, .unit⟩]
                st := { s1.st with scopeLevel := s1.st.scopeLevel + 1 } }
              let idx := s2.scope.length - 1
              match forIterate eng fuel s2 idx body (f iterVal) with
              | none => none
              | some (.error er, s3) => some (.error er, s3)
              | some (.ok _, s3) =>
                some (.ok .unit, { s3 with
                  scope := s3.scope.take (s3.scope.length - 1)
                  st := { s3.st with scopeLevel := s3.st.scopeLevel - 1 } })
        | .continueS => some (.error (.loopBreak false), s)
        | .breakS => some (.error (.loopBreak true), s)
        | .returnS (some e) =>
          match evalExpr eng fuel s e with
          | none => none
          | some (.error er, s1) => some (.error er, s1)
          | some (.ok v, s1) => some (.error (.ret v), s1)
        | .returnS none => some (.error (.ret .unit), s)
        | .throwS (some e) =>
          match evalExpr eng fuel s e with
          | none => none
          | some (.error er, s1) => some (.error er, s1)
          | some (.ok v, s1) =>
            some (.error (.errorRuntime
              (match v.takeString with | .ok str => str | .error _ => "")), s1)
        | .throwS none => some (.error (.errorRuntime ""), s)
        | .letS name (some e) =>
          match evalExpr eng fuel s e with
          | none => none
          | some (.error er, s1) => some (.error er, s1)
          | some (.ok v, s1) =>
            some (.ok .unit,
              { s1 with scope := s1.scope ++ [⟨name, .normal, none, v⟩] })
        | .letS name none =>
          some (.ok .unit,
            { s with scope := s.scope ++ [⟨name, .normal, none, .unit⟩] })
        | .constS name e =>
          if e.isConstant then
            match evalExpr eng fuel s e with
            | none => none
            | some (.error er, s1) => some (.error er, s1)
            | some (.ok v, s1) =>
              some (.ok .unit,
                { s1 with scope := s1.scope ++ [⟨name, .constant, none, v⟩] })
          else some (.error .panicUnreachable, s)
        | .importS pathE aliasName =>
          if eng.maxModules ≤ s.st.modules then some (.error .tooManyModules, s)
          else
            match evalExpr eng fuel s pathE with
            | none => none
            | some (.error er, s1) => some (.error er, s1)
            | some (.ok v, s1) =>
              match v with
              | .str path =>
                match eng.resolver with
                | some resolve =>
                  match resolve path with
                  | .error er => some (.error er, s1)
                  | .ok _ =>
                    some (.ok .unit, { s1 with
                      mods := s1.mods ++ [aliasName]
                      st := { s1.st with modules := s1.st.modules + 1 } })
                | none => some (.error (.moduleNotFound path), s1)
              | _ => some (.error .importExpr, s1)
        | .exportS ids =>
          match exportList s.scope ids with
          | (some er, sc) => some (.error er, { s with scope := sc })
          | (none, sc) => some (.ok .unit, { s with scope := sc })
      wrapCds eng out

/-- Sequential fold over a block's statements (the `try_fold` in the
`Stmt::Block` case, engine.rs:1436-1438): the last value is kept, an empty
block yields unit, an error aborts the fold. -/
def evalStmts (eng : Engine) : Nat → EState → List Stmt → StepOut Dyn
  | 0, _, _ => none
  | _+1, s, [] => some (.ok .unit, s)
  | fuel+1, s, stmt :: rest =>
    match evalStmt eng fuel s stmt with
    | none => none
    | some (.error er, s1) => some (.error er, s1)
    | some (.ok v, s1) =>
      match rest with
      | [] => some (.ok v, s1)
      | _ :: _ => evalStmts eng fuel s1 rest

/-- Guard-and-body loop for `Stmt::While` (engine.rs:1470-1494): a
non-boolean guard value is `LogicGuard`; a body `continue` signal is
swallowed, a `break` signal exits with unit, other errors propagate. -/
def whileLoop (eng : Engine) : Nat → EState → Expr → Stmt → StepOut Dyn
  | 0, _, _, _ => none
  | fuel+1, s, g, body =>
    match evalExpr eng fuel s g with
    | none => none
    | some (.error er, s1) => some (.error er, s1)
    | some (.ok gv, s1) =>
      match gv.asBool with
      | .error _ => some (.error .logicGuard, s1)
      | .ok false => some (.ok .unit, s1)
      | .ok true =>
        match evalStmt eng fuel s1 body with
        | none => none
        | some (.ok _, s2) => whileLoop eng fuel s2 g body
        | some (.error er, s2) =>
          match er with
          | .loopBreak false => whileLoop eng fuel s2 g body
          | .loopBreak true => some (.ok .unit, s2)
          | _ => some (.error er, s2)

/-- Body loop for `Stmt::Loop` (engine.rs:1497-1506): like `while true`. -/
def loopLoop (eng : Engine) : Nat → EState → Stmt → StepOut Dyn
  | 0, _, _ => none
  | fuel+1, s, body =>
    match evalStmt eng fuel s body with
    | none => none
    | some (.ok _, s1) => loopLoop eng fuel s1 body
    | some (.error er, s1) =>
      match er with
      | .loopBreak false => loopLoop eng fuel s1 body
      | .loopBreak true => some (.ok .unit, s1)
      | _ => some (.error er, s1)

/-- Iteration of a for loop over the iterator's values (the `for` loop in
the `Stmt::For` case, engine.rs:1525-1538): each value is written into the
loop-variable slot, the operation governor is ticked, and the body is
evaluated with `continue` swallowed and `break` exiting; a governor error or
any other body error propagates out of the iteration without restoring
anything. -/
def forIterate (eng : Engine) : Nat → EState → Nat → Stmt → List Dyn → StepOut Dyn
  | 0, _, _, _, _ => none
  | _+1, s, _, _, [] => some (.ok .unit, s)
  | fuel+1, s, idx, body, v :: rest =>
    let s1 := { s with scope := scopeSetVal s.scope idx v }
    match eng.incOperations s1.st with
    | (st2, some er) => some (.error er, { s1 with st := st2 })
    | (st2, none) =>
      match evalStmt eng fuel { s1 with st := st2 } body with
      | none => none
      | some (.ok _, s3) => forIterate eng fuel s3 idx body rest
      | some (.error er, s3) =>
        match er with
        | .loopBreak false => forIterate eng fuel s3 idx body rest
        | .loopBreak true => some (.ok .unit, s3)
        | _ => some (.error er, s3)

/-- Expression evaluator (`Engine::eval_expr`, engine.rs:1148-1407).  Ticks
the operation governor on entry, dispatches on expression kind, and passes
the result through the size governor. -/
def evalExpr (eng : Engine) : Nat → EState → Expr → StepOut Dyn
  | 0, _, _ => none
  | fuel+1, s0, e =>
    match eng.incOperations s0.st with
    | (st0, some er) => some (.error er, { s0 with st := st0 })
    | (st0, none) =>
      let s := { s0 with st := st0 }
      let out : StepOut Dyn :=
        match e with
        | .intC i => some (.ok (.int i), s)
        | .charC c => some (.ok (.char c), s)
        | .strC str => some (.ok (.str str), s)
        | .fnPtrC n => some (.ok (.fnPtr n), s)
        | .trueC => some (.ok (.bool true), s)
        | .falseC => some (.ok (.bool false), s)
        | .unitC => some (.ok .unit, s)
        | .var name k =>
          if name = "this" then
            match s.thisPtr with
            | some v => some (.ok v, s)
            | none => some (.error .unboundedThis, s)
          else
            match searchScopeOnly s.scope s.st s.thisPtr name k with
            | .error er => some (.error er, s)
            | .ok (.thisF v) => some (.ok v, s)
            | .ok (.slot _ entry) => some (.ok entry.val, s)
        | .stmtE stmt => evalStmt eng fuel s stmt
        | .assignment lhs op rhs => evalAssignment eng fuel s lhs op rhs
        | .index _ _ => evalDotIndexChain eng fuel s e none
        | .arrayC elems =>
          match evalExprList eng fuel s elems with
          | none => none
          | some (.error er, s1) => some (.error er, s1)
          | some (.ok vs, s1) => some (.ok (.array vs), s1)
        | .mapC elems =>
          match evalMapList eng fuel s elems with
          | none => none
          | some (.error er, s1) => some (.error er, s1)
          | some (.ok pairs, s1) =>
            some (.ok (.map (pairs.foldl
              (fun m kv => mapInsert m kv.1 kv.2) [])), s1)
        | .fnCall name args defVal =>
          match evalExprList eng fuel s args with
          | none => none
          | some (.error er, s1) => some (.error er, s1)
          | some (.ok vs, s1) =>
            match callFnRaw eng name vs defVal with
            | .error er => some (.error er, s1)
            | .ok v => some (.ok v, s1)
        | .inE lhs rhs => evalInExpr eng fuel s lhs rhs
        | .andE lhs rhs =>
          match evalExpr eng fuel s lhs with
          | none => none
          | some (.error er, s1) => some (.error er, s1)
          | some (.ok lv, s1) =>
            match lv.asBool with
            | .error _ => some (.error (.booleanArgMismatch "AND"), s1)
            | .ok false => some (.ok (.bool false), s1)
            | .ok true =>
              match evalExpr eng fuel s1 rhs with
              | none => none
              | some (.error er, s2) => some (.error er, s2)
              | some (.ok rv, s2) =>
                match rv.asBool with
                | .error _ => some (.error (.booleanArgMismatch "AND"), s2)
                | .ok b => some (.ok (.bool b), s2)
        | .orE lhs rhs =>
          match evalExpr eng fuel s lhs with
          | none => none
          | some (.error er, s1) => some (.error er, s1)
          | some (.ok lv, s1) =>
            match lv.asBool with
            | .error _ => some (.error (.booleanArgMismatch "OR"), s1)
            | .ok true => some (.ok (.bool true), s1)
            | .ok false =>
              match evalExpr eng fuel s1 rhs with
              | none => none
              | some (.error er, s2) => some (.error er, s2)
              | some (.ok rv, s2) =>
                match rv.asBool with
                | .error _ => some (.error (.booleanArgMismatch "OR"), s2)
                | .ok b => some (.ok (.bool b), s2)
      wrapCds eng out

/-- The two assignment arms of `Engine::eval_expr` (engine.rs:1187-1296).
For a bare variable LHS: evaluate the RHS, search the namespace, tick the
governor, reject a constant slot, then write directly (`=`) or run the
op-assignment ladder (registered method / built-in seam, else desugar to
`lhs = lhs op rhs` through the call seam).  For any other LHS: evaluate the
RHS, compute the new value (desugaring a compound op by re-evaluating the
LHS and dispatching the bare operator), then drive an index chain with the
new value; a constant expression LHS is `AssignmentToConstant`, anything
else `AssignmentToUnknownLHS`. -/
def evalAssignment (eng : Engine) : Nat → EState → Expr → String → Expr → StepOut Dyn
  | 0, _, _, _, _ => none
  | fuel+1, s, lhs, op, rhs =>
    match evalExpr eng fuel s rhs with
    | none => none
    | some (.error er, s1) => some (.error er, s1)
    | some (.ok rhsVal, s1) =>
      match lhs with
      | .var name k =>
        match searchScopeOnly s1.scope s1.st s1.thisPtr name k with
        | .error er => some (.error er, s1)
        | .ok found =>
          match eng.incOperations s1.st with
          | (st2, some er) => some (.error er, { s1 with st := st2 })
          | (st2, none) =>
            let s2 := { s1 with st := st2 }
            let typ := match found with
              | .thisF _ => EntryType.normal
              | .slot _ en => en.typ
            let oldVal := match found with
              | .thisF v => v
              | .slot _ en => en.val
            match typ with
            | .constant => some (.error (.assignmentToConstant name), s2)
            | .normal =>
              let write : Dyn → EState := fun nv =>
                match found with
                | .thisF _ => { s2 with thisPtr := some nv }
                | .slot i _ => { s2 with scope := scopeSetVal s2.scope i nv }
              if op = "" then some (.ok .unit, write rhsVal)
              else
                match eng.opAssign op oldVal rhsVal with
                | some (.error er) => some (.error er, s2)
                | some (.ok nv) => some (.ok .unit, write nv)
                | none =>
                  match callFnRaw eng (op.dropRight 1) [oldVal, rhsVal] none with
                  | .error er => some (.error er, s2)
                  | .ok nv => some (.ok .unit, write nv)
      | _ =>
        let nvStep : StepOut Dyn :=
          if op = "" then some (.ok rhsVal, s1)
          else
            match evalExpr eng fuel s1 lhs with
            | none => none
            | some (.error er, s2) => some (.error er, s2)
            | some (.ok lv, s2) =>
              some (callFnRaw eng (op.dropRight 1) [lv, rhsVal] none, s2)
        match nvStep with
        | none => none
        | some (.error er, s2) => some (.error er, s2)
        | some (.ok newVal, s2) =>
          match lhs with
          | .var _ _ => some (.error .panicUnreachable, s2)
          | .index _ _ =>
            match evalDotIndexChain eng fuel s2 lhs (some newVal) with
            | none => none
            | some (.error er, s3) => some (.error er, s3)
            | some (.ok _, s3) => some (.ok .unit, s3)
          | other =>
            if other.isConstant then
              some (.error (.assignmentToConstant other.getConstantStr), s2)
            else some (.error .assignmentToUnknownLHS, s2)

/-- Index-chain driver (`Engine::eval_dot_index_chain`, engine.rs:828-897,
restricted to `ChainType::Index`): phase 1 collects the subscript values,
then a variable base is searched (with a governor tick), a write into a
constant slot is rejected with `AssignmentToConstant`, and phase 2 descends;
for a write chain the updated base is routed back into the slot (in the
source this happens through the `&mut` alias).  A non-variable base rejects
writes with `AssignmentToUnknownLHS` and otherwise evaluates to an owned
base value. -/
def evalDotIndexChain (eng : Engine) : Nat → EState → Expr → Option Dyn → StepOut Dyn
  | 0, _, _, _ => none
  | fuel+1, s, e, newVal =>
    match e with
    | .index dotLhs dotRhs =>
      match collectIdxVals eng fuel s dotRhs with
      | none => none
      | some (.error er, s1) => some (.error er, s1)
      | some (.ok idxVals, s1) =>
        match dotLhs with
        | .var name k =>
          match eng.incOperations s1.st with
          | (st2, some er) => some (.error er, { s1 with st := st2 })
          | (st2, none) =>
            let s2 := { s1 with st := st2 }
            match searchScopeOnly s2.scope s2.st s2.thisPtr name k with
            | .error er => some (.error er, s2)
            | .ok found =>
              let typ := match found with
                | .thisF _ => EntryType.normal
                | .slot _ en => en.typ
              match typ, newVal with
              | .constant, some _ =>
                some (.error (.assignmentToConstant name), s2)
              | _, _ =>
                let baseVal := match found with
                  | .thisF v => v
                  | .slot _ en => en.val
                match chainHelper eng s2.st baseVal idxVals newVal with
                | (st3, .error er) => some (.error er, { s2 with st := st3 })
                | (st3, .ok (res, newBase)) =>
                  let s3 := { s2 with st := st3 }
                  match newVal with
                  | none => some (.ok res, s3)
                  | some _ =>
                    match found with
                    | .thisF _ => some (.ok res, { s3 with thisPtr := some newBase })
                    | .slot i _ =>
                      some (.ok res, { s3 with scope := scopeSetVal s3.scope i newBase })
        | _ =>
          match newVal with
          | some _ => some (.error .assignmentToUnknownLHS, s1)
          | none =>
            match evalExpr eng fuel s1 dotLhs with
            | none => none
            | some (.error er, s2) => some (.error er, s2)
            | some (.ok baseVal, s2) =>
              match chainHelper eng s2.st baseVal idxVals none with
              | (st3, .error er) => some (.error er, { s2 with st := st3 })
              | (st3, .ok (res, _)) => some (.ok res, { s2 with st := st3 })
    | _ => some (.error .panicUnreachable, s)

/-- Phase 1 of chain evaluation (`Engine::eval_indexed_chain`,
engine.rs:904-970, restricted to index chains): ticks the governor, then
walks the right spine of the chain, evaluating each subscript expression
left-to-right and collecting the values (the source pushes them in reverse
onto a stack popped once per level; a left-to-right list consumed head first
is the same order). -/
def collectIdxVals (eng : Engine) : Nat → EState → Expr → StepOut (List Dyn)
  | 0, _, _ => none
  | fuel+1, s0, e =>
    match eng.incOperations s0.st with
    | (st0, some er) => some (.error er, { s0 with st := st0 })
    | (st0, none) =>
      let s := { s0 with st := st0 }
      match e with
      | .index lhs rhs =>
        match evalExpr eng fuel s lhs with
        | none => none
        | some (.error er, s1) => some (.error er, s1)
        | some (.ok lv, s1) =>
          match collectIdxVals eng fuel s1 rhs with
          | none => none
          | some (.error er, s2) => some (.error er, s2)
          | some (.ok rest, s2) => some (.ok (lv :: rest), s2)
      | _ =>
        match evalExpr eng fuel s e with
        | none => none
        | some (.error er, s1) => some (.error er, s1)
        | some (.ok v, s1) => some (.ok [v], s1)

/-- Left-to-right evaluation of an expression list (array literal elements,
function-call arguments). -/
def evalExprList (eng : Engine) : Nat → EState → List Expr → StepOut (List Dyn)
  | 0, _, _ => none
  | _+1, s, [] => some (.ok [], s)
  | fuel+1, s, e :: rest =>
    match evalExpr eng fuel s e with
    | none => none
    | some (.error er, s1) => some (.error er, s1)
    | some (.ok v, s1) =>
      match evalExprList eng fuel s1 rest with
      | none => none
      | some (.error er, s2) => some (.error er, s2)
      | some (.ok vs, s2) => some (.ok (v :: vs), s2)

/-- Left-to-right evaluation of a map literal's entries. -/
def evalMapList (eng : Engine) : Nat → EState → List (String × Expr) →
    StepOut (List (String × Dyn))
  | 0, _, _ => none
  | _+1, s, [] => some (.ok [], s)
  | fuel+1, s, (key, e) :: rest =>
    match evalExpr eng fuel s e with
    | none => none
    | some (.error er, s1) => some (.error er, s1)
    | some (.ok v, s1) =>
      match evalMapList eng fuel s1 rest with
      | none => none
      | some (.error er, s2) => some (.error er, s2)
      | some (.ok vs, s2) => some (.ok ((key, v) :: vs), s2)

/-- The `in` expression (`Engine::eval_in_expr`, engine.rs:1081-1145): ticks
the governor, evaluates LHS then RHS, then applies the value-level `in`
semantics. -/
def evalInExpr (eng : Engine) : Nat → EState → Expr → Expr → StepOut Dyn
  | 0, _, _, _ => none
  | fuel+1, s0, lhs, rhs =>
    match eng.incOperations s0.st with
    | (st0, some er) => some (.error er, { s0 with st := st0 })
    | (st0, none) =>
      let s := { s0 with st := st0 }
      match evalExpr eng fuel s lhs with
      | none => none
      | some (.error er, s1) => some (.error er, s1)
      | some (.ok lv, s1) =>
        match evalExpr eng fuel s1 rhs with
        | none => none
        | some (.error er, s2) => some (.error er, s2)
        | some (.ok rv, s2) => some (inOp eng lv rv, s2)

end

/-! ## Structural invariants of evaluation

The lemmas below capture what every evaluation step preserves about the
scope, imports and state: the stacks never shrink below their entry lengths,
slots present at entry keep their name and type (and constant slots their
value), and the scope level is restored whenever the step completes with a
value or with a loop-break signal (the only signals a loop construct
consumes). -/

/-- Entry preservation between two scopes: every slot of the first is still
present at the same index with the same name and type, and constant slots
also keep their value (the alias tag may change through `export`). -/
def entryPres (a b : List ScopeEntry) : Prop :=
  ∀ (i : Nat) (e : ScopeEntry), a[i]? = some e →
    ∃ e2, b[i]? = some e2 ∧ e2.name = e.name ∧ e2.typ = e.typ ∧
      (e.typ = .constant → e2.val = e.val)

theorem entryPres_refl (a : List ScopeEntry) : entryPres a a :=
  fun _ e h => ⟨e, h, rfl, rfl, fun _ => rfl⟩

theorem entryPres_trans {a b c : List ScopeEntry} (h1 : entryPres a b)
    (h2 : entryPres b c) : entryPres a c := by
  intro i e he
  obtain ⟨e2, hb, hn, ht, hv⟩ := h1 i e he
  obtain ⟨e3, hc, hn2, ht2, hv2⟩ := h2 i e2 hb
  exact ⟨e3, hc, hn2.trans hn, ht2.trans ht, fun hco =>
    (hv2 (ht.symm ▸ hco)).trans (hv hco)⟩

theorem getElem?_some_lt {α : Type} {l : List α} {i : Nat} {e : α}
    (h : l[i]? = some e) : i < l.length := by
  by_contra hn
  rw [List.getElem?_eq_none (Nat.le_of_not_lt hn)] at h
  exact Option.noConfusion h

theorem entryPres_append (a l : List ScopeEntry) : entryPres a (a ++ l) := by
  intro i e he
  exact ⟨e, by rw [List.getElem?_append_left (getElem?_some_lt he)]; exact he,
    rfl, rfl, fun _ => rfl⟩

theorem entryPres_take {a b : List ScopeEntry} {n : Nat} (h : entryPres a b)
    (hn : a.length ≤ n) : entryPres a (b.take n) := by
  intro i e he
  obtain ⟨e2, hb, rest⟩ := h i e he
  exact ⟨e2, by
    rw [List.getElem?_take_of_lt (Nat.lt_of_lt_of_le (getElem?_some_lt he) hn)]
    exact hb, rest⟩

theorem scopeSetVal_length (sc : List ScopeEntry) (i : Nat) (v : Dyn) :
    (scopeSetVal sc i v).length = sc.length := by
  unfold scopeSetVal
  split
  · exact List.length_set ..
  · rfl

theorem scopeSetAlias_length (sc : List ScopeEntry) (i : Nat) (a : String) :
    (scopeSetAlias sc i a).length = sc.length := by
  unfold scopeSetAlias
  split
  · exact List.length_set ..
  · rfl

theorem entryPres_setVal {sc : List ScopeEntry} {i : Nat} {v : Dyn}
    (hn : ∀ en, sc[i]? = some en → en.typ ≠ .constant) :
    entryPres sc (scopeSetVal sc i v) := by
  unfold scopeSetVal
  split
  case h_1 en hen =>
    intro j e he
    rcases Decidable.em (i = j) with rfl | hne
    · have hee : en = e := by rw [hen] at he; exact Option.some.inj he
      subst hee
      exact ⟨{ en with val := v },
        by rw [List.getElem?_set_eq_of_lt _ (getElem?_some_lt hen)],
        rfl, rfl, fun hco => absurd hco (hn en hen)⟩
    · exact ⟨e, by rw [List.getElem?_set_ne hne]; exact he, rfl, rfl,
        fun _ => rfl⟩
  case h_2 => exact entryPres_refl sc

theorem entryPres_setAlias {sc : List ScopeEntry} {i : Nat} {a : String} :
    entryPres sc (scopeSetAlias sc i a) := by
  unfold scopeSetAlias
  split
  case h_1 en hen =>
    intro j e he
    rcases Decidable.em (i = j) with rfl | hne
    · have hee : en = e := by rw [hen] at he; exact Option.some.inj he
      subst hee
      exact ⟨{ en with exportAlias := some a },
        by rw [List.getElem?_set_eq_of_lt _ (getElem?_some_lt hen)],
        rfl, rfl, fun _ => rfl⟩
    · exact ⟨e, by rw [List.getElem?_set_ne hne]; exact he, rfl, rfl,
        fun _ => rfl⟩
  case h_2 => exact entryPres_refl sc

theorem exportList_spec (ids : List (String × Option String)) :
    ∀ sc : List ScopeEntry, (exportList sc ids).2.length = sc.length ∧
      entryPres sc (exportList sc ids).2 := by
  induction ids with
  | nil => intro sc; exact ⟨rfl, entryPres_refl sc⟩
  | cons p rest ih =>
    intro sc
    obtain ⟨id, rename⟩ := p
    cases hgi : scopeGetIndex sc id with
    | some i =>
      have := ih (scopeSetAlias sc i (rename.getD id))
      unfold exportList
      rw [hgi]
      exact ⟨this.1.trans (scopeSetAlias_length ..),
        entryPres_trans entryPres_setAlias this.2⟩
    | none =>
      unfold exportList
      rw [hgi]
      exact ⟨rfl, entryPres_refl sc⟩

/-- State-stack preservation between an entry context and an exit context. -/
structure Pres (s s2 : EState) : Prop where
  scopeLen : s.scope.length ≤ s2.scope.length
  modsLen : s.mods.length ≤ s2.mods.length
  lvlGe : s.st.scopeLevel ≤ s2.st.scopeLevel
  entries : entryPres s.scope s2.scope

theorem Pres.refl (s : EState) : Pres s s :=
  ⟨Nat.le_refl _, Nat.le_refl _, Nat.le_refl _, entryPres_refl _⟩

theorem Pres.trans {s s1 s2 : EState} (h1 : Pres s s1) (h2 : Pres s1 s2) :
    Pres s s2 :=
  ⟨h1.scopeLen.trans h2.scopeLen, h1.modsLen.trans h2.modsLen,
    h1.lvlGe.trans h2.lvlGe, entryPres_trans h1.entries h2.entries⟩

/-- A result that a loop construct would treat as non-aborting: a value, or a
loop-break signal (which never escapes a `for`, and which `while`/`loop`
consume). -/
def okOrBreak {α : Type} : Except EvalErr α → Prop
  | .ok _ => True
  | .error (.loopBreak _) => True
  | .error _ => False

/-- What one evaluation step guarantees: preservation, plus restoration of
the scope level when the result is a value or a loop-break signal. -/
def StepOK {α : Type} (s : EState) (r : Except EvalErr α) (s2 : EState) : Prop :=
  Pres s s2 ∧ (okOrBreak r → s2.st.scopeLevel = s.st.scopeLevel)

theorem stepOK_refl {α : Type} (s : EState) (r : Except EvalErr α) :
    StepOK s r s :=
  ⟨Pres.refl s, fun _ => rfl⟩

theorem stepOK_st {α : Type} (s : EState) (r : Except EvalErr α) (st2 : State)
    (h : st2.scopeLevel = s.st.scopeLevel) : StepOK s r { s with st := st2 } :=
  ⟨⟨Nat.le_refl _, Nat.le_refl _, Nat.le_of_eq h.symm, entryPres_refl _⟩,
    fun _ => h⟩

theorem stepOK_trans {α β : Type} {s s1 s2 : EState} {r1 : Except EvalErr α}
    {r2 : Except EvalErr β} (h1 : StepOK s r1 s1) (hk : okOrBreak r1)
    (h2 : StepOK s1 r2 s2) : StepOK s r2 s2 :=
  ⟨h1.1.trans h2.1, fun hk2 => (h2.2 hk2).trans (h1.2 hk)⟩

theorem stepOK_sub {α β : Type} {s s2 : EState} {r1 : Except EvalErr α}
    {r2 : Except EvalErr β} (h : StepOK s r1 s2)
    (him : okOrBreak r2 → okOrBreak r1) : StepOK s r2 s2 :=
  ⟨h.1, fun hk => h.2 (him hk)⟩

theorem incOps_scopeLevel (eng : Engine) (st : State) :
    (eng.incOperations st).1.scopeLevel = st.scopeLevel := by
  unfold Engine.incOperations
  by_cases hc : 0 < eng.maxOperations ∧ eng.maxOperations < st.operations + 1
  · simp [hc]
  · cases hp : eng.progress with
    | none => simp [hc, hp]
    | some p => by_cases hb : p (st.operations + 1) <;> simp [hc, hp, hb]

theorem incOps_alwaysSearch (eng : Engine) (st : State) :
    (eng.incOperations st).1.alwaysSearch = st.alwaysSearch := by
  unfold Engine.incOperations
  by_cases hc : 0 < eng.maxOperations ∧ eng.maxOperations < st.operations + 1
  · simp [hc]
  · cases hp : eng.progress with
    | none => simp [hc, hp]
    | some p => by_cases hb : p (st.operations + 1) <;> simp [hc, hp, hb]

theorem incOps_err_shape {eng : Engine} {st : State} {st2 : State}
    {er : EvalErr} (h : eng.incOperations st = (st2, some er)) :
    er = .tooManyOperations ∨ er = .terminated := by
  unfold Engine.incOperations at h
  dsimp only at h
  split at h
  · exact Or.inl (Option.some.inj (congrArg Prod.snd h)).symm
  · split at h
    · split at h
      · exact Option.noConfusion (congrArg Prod.snd h)
      · exact Or.inr (Option.some.inj (congrArg Prod.snd h)).symm
    · exact Option.noConfusion (congrArg Prod.snd h)

theorem cds_error (eng : Engine) (e : EvalErr) :
    eng.checkDataSize (.error e) = .error e := by
  unfold Engine.checkDataSize
  split <;> rfl

theorem cds_okOrBreak {eng : Engine} {r : Except EvalErr Dyn}
    (h : okOrBreak (eng.checkDataSize r)) : okOrBreak r := by
  cases r with
  | ok v => trivial
  | error e => rw [cds_error] at h; exact h


theorem wrapCds_some {eng : Engine} {out : StepOut Dyn} {r : Except EvalErr Dyn}
    {s2 : EState} (h : wrapCds eng out = some (r, s2)) :
    ∃ r0, out = some (r0, s2) ∧ r = eng.checkDataSize r0 := by
  unfold wrapCds at h
  cases out with
  | none => exact Option.noConfusion h
  | some p =>
    obtain ⟨r0, s9⟩ := p
    obtain ⟨h1, h2⟩ := Prod.mk.inj (Option.some.inj h)
    exact ⟨r0, by rw [h2], h1.symm⟩

theorem wrapCds_stepOK {eng : Engine} {s s2 : EState} {out : StepOut Dyn}
    {r : Except EvalErr Dyn} (hout : wrapCds eng out = some (r, s2))
    (hin : ∀ r0 s0, out = some (r0, s0) → StepOK s r0 s0) : StepOK s r s2 := by
  obtain ⟨r0, ho, rfl⟩ := wrapCds_some hout
  exact stepOK_sub (hin r0 s2 ho) cds_okOrBreak

theorem stepOK_any {α β : Type} {s s2 : EState} {r1 : Except EvalErr α}
    (r2 : Except EvalErr β) (h : StepOK s r1 s2) (hk : okOrBreak r1) :
    StepOK s r2 s2 :=
  ⟨h.1, fun _ => h.2 hk⟩

theorem okOrBreak_error {α : Type} {e : EvalErr}
    (h : okOrBreak (Except.error e : Except EvalErr α)) :
    ∃ b, e = .loopBreak b := by
  cases e <;> first | exact absurd h (fun x => x) | exact ⟨_, rfl⟩

theorem getIndexedMut_scopeLevel (eng : Engine) (st : State) (t idx : Dyn)
    (c : Bool) : (eng.getIndexedMut st t idx c).1.scopeLevel = st.scopeLevel := by
  unfold Engine.getIndexedMut
  rcases hg : eng.incOperations st with ⟨st1, o⟩
  have hl : st1.scopeLevel = st.scopeLevel := by
    have := incOps_scopeLevel eng st; rw [hg] at this; exact this
  cases o with
  | some er => exact hl
  | none => cases t <;> dsimp only <;> (repeat' split) <;> exact hl

theorem chainHelper_scopeLevel (eng : Engine) : ∀ (idxs : List Dyn)
    (st : State) (t : Dyn) (nv : Option Dyn),
    (chainHelper eng st t idxs nv).1.scopeLevel = st.scopeLevel := by
  intro idxs
  induction idxs with
  | nil => intro st t nv; rfl
  | cons x tail ih =>
    intro st t nv
    cases tail with
    | nil =>
      simp only [chainHelper]
      cases nv with
      | some v =>
        rcases hg : eng.getIndexedMut st t x true with ⟨st1, o⟩
        have hl : st1.scopeLevel = st.scopeLevel := by
          have := getIndexedMut_scopeLevel eng st t x true; rw [hg] at this
          exact this
        cases o <;> (try dsimp only) <;> (repeat' split) <;> exact hl
      | none =>
        rcases hg : eng.getIndexedMut st t x false with ⟨st1, o⟩
        have hl : st1.scopeLevel = st.scopeLevel := by
          have := getIndexedMut_scopeLevel eng st t x false; rw [hg] at this
          exact this
        cases o <;> (try dsimp only) <;> exact hl
    | cons y tail2 =>
      simp only [chainHelper]
      rcases hg : eng.getIndexedMut st t x false with ⟨st1, o⟩
      have hl : st1.scopeLevel = st.scopeLevel := by
        have := getIndexedMut_scopeLevel eng st t x false; rw [hg] at this
        exact this
      cases o with
      | error er => exact hl
      | ok p =>
        obtain ⟨got, parent1⟩ := p
        cases got <;> (try dsimp only) <;>
          (rcases hc : chainHelper eng st1 _ (y :: tail2) nv with ⟨st2, o2⟩) <;>
          (have hl2 : st2.scopeLevel = st1.scopeLevel := by
            have h2 := congrArg Prod.fst hc
            dsimp only at h2
            rw [← h2]
            exact ih st1 _ nv) <;>
          cases o2 <;> (try dsimp only) <;> exact hl2.trans hl


set_option maxHeartbeats 1000000

theorem stepOK_err_cast {α β : Type} {s s2 : EState} {e : EvalErr}
    (h : StepOK s (Except.error e : Except EvalErr α) s2) :
    StepOK s (Except.error e : Except EvalErr β) s2 :=
  ⟨h.1, fun hk => h.2 (by cases e <;> exact hk)⟩

theorem searchScope_slot_get {sc : List ScopeEntry} {st : State}
    {tp : Option Dyn} {name : String} {k : Option Nat} {i : Nat}
    {e : ScopeEntry} (h : searchScopeOnly sc st tp name k = .ok (.slot i e)) :
    sc[i]? = some e := by
  unfold searchScopeOnly at h
  split at h
  · split at h <;> simp at h
  · split at h
    · split at h
      · obtain ⟨h1, h2⟩ := Found.slot.inj (Except.ok.inj h)
        rw [← h1, ← h2]
        assumption
      · simp at h
    · split at h
      · split at h
        · obtain ⟨h1, h2⟩ := Found.slot.inj (Except.ok.inj h)
          rw [← h1, ← h2]
          assumption
        · simp at h
      · simp at h

theorem stepOK_thisPtr {α : Type} (s : EState) (r : Except EvalErr α)
    (x : Option Dyn) : StepOK s r { s with thisPtr := x } :=
  ⟨⟨Nat.le_refl _, Nat.le_refl _, Nat.le_refl _, entryPres_refl _⟩,
    fun _ => rfl⟩

theorem stepOK_push (s : EState) (x : ScopeEntry) :
    StepOK s (Except.ok Dyn.unit) { s with scope := s.scope ++ [x] } :=
  ⟨⟨by simp, Nat.le_refl _, Nat.le_refl _, entryPres_append s.scope [x]⟩,
    fun _ => rfl⟩

theorem invAll : ∀ fuel : Nat,
    (∀ eng s stmt r s2, evalStmt eng fuel s stmt = some (r, s2) → StepOK s r s2) ∧
    (∀ eng s l r s2, evalStmts eng fuel s l = some (r, s2) → StepOK s r s2) ∧
    (∀ eng s g b r s2, whileLoop eng fuel s g b = some (r, s2) → StepOK s r s2) ∧
    (∀ eng s b r s2, loopLoop eng fuel s b = some (r, s2) → StepOK s r s2) ∧
    (∀ eng s idx b vs r s2,
      (∃ en, s.scope[idx]? = some en ∧ en.typ ≠ EntryType.constant) →
      forIterate eng fuel s idx b vs = some (r, s2) →
      StepOK s r s2 ∧ ∀ bb, r ≠ .error (.loopBreak bb)) ∧
    (∀ eng s e r s2, evalExpr eng fuel s e = some (r, s2) → StepOK s r s2) ∧
    (∀ eng s l op rh r s2, evalAssignment eng fuel s l op rh = some (r, s2) →
      StepOK s r s2) ∧
    (∀ eng s e nv r s2, evalDotIndexChain eng fuel s e nv = some (r, s2) →
      StepOK s r s2) ∧
    (∀ eng s e r s2, collectIdxVals eng fuel s e = some (r, s2) → StepOK s r s2) ∧
    (∀ eng s l r s2, evalExprList eng fuel s l = some (r, s2) → StepOK s r s2) ∧
    (∀ eng s l r s2, evalMapList eng fuel s l = some (r, s2) → StepOK s r s2) ∧
    (∀ eng s a b r s2, evalInExpr eng fuel s a b = some (r, s2) → StepOK s r s2) := by
  intro fuel
  induction fuel with
  | zero =>
    refine ⟨fun eng s x r s2 h => ?_, fun eng s x r s2 h => ?_,
      fun eng s x y r s2 h => ?_, fun eng s x r s2 h => ?_,
      fun eng s x y z r s2 hh h => ?_, fun eng s x r s2 h => ?_,
      fun eng s x y z r s2 h => ?_, fun eng s x y r s2 h => ?_,
      fun eng s x r s2 h => ?_, fun eng s x r s2 h => ?_,
      fun eng s x r s2 h => ?_, fun eng s x y r s2 h => ?_⟩ <;>
      exact Option.noConfusion h
  | succ n ih =>
    obtain ⟨ihS, ihSs, ihW, ihL, ihF, ihE, ihA, ihC, ihCo, ihEL, ihML, ihI⟩ := ih
    refine ⟨?_, ?_, ?_, ?_, ?_, ?_, ?_, ?_, ?_, ?_, ?_, ?_⟩
    -- evalStmt
    · intro eng s stmt r s2 h
      rw [evalStmt] at h
      rcases hgov : eng.incOperations s.st with ⟨st0, o⟩
      rw [hgov] at h
      have hlvl : st0.scopeLevel = s.st.scopeLevel := by
        have := incOps_scopeLevel eng s.st; rw [hgov] at this; exact this
      cases o with
      | some er =>
        simp only at h
        obtain ⟨rfl, rfl⟩ := Prod.mk.inj (Option.some.inj h)
        exact stepOK_st s _ st0 hlvl
      | none =>
        simp only at h
        refine stepOK_trans (stepOK_st s (Except.ok Dyn.unit) st0 hlvl)
          trivial ?_
        refine wrapCds_stepOK h ?_
        intro r0 s0 ho
        cases stmt with
        | noop =>
          obtain ⟨rfl, rfl⟩ := Prod.mk.inj (Option.some.inj ho)
          exact stepOK_refl ..
        | exprS e => exact ihE eng _ e _ _ ho
        | block body =>
          simp only at ho
          cases hb : evalStmts eng n
              { s with st := { st0 with scopeLevel := st0.scopeLevel + 1 } }
              body with
          | none => rw [hb] at ho; exact Option.noConfusion ho
          | some p =>
            obtain ⟨rr, sB⟩ := p
            rw [hb] at ho
            simp only at ho
            obtain ⟨rfl, rfl⟩ := Prod.mk.inj (Option.some.inj ho)
            have hfold := ihSs eng _ body _ _ hb
            have hslen : s.scope.length ≤ sB.scope.length := hfold.1.scopeLen
            have hmlen : s.mods.length ≤ sB.mods.length := hfold.1.modsLen
            have hlv : st0.scopeLevel + 1 ≤ sB.st.scopeLevel := hfold.1.lvlGe
            refine ⟨⟨?_, ?_, ?_, ?_⟩, ?_⟩
            · simp only [List.length_take]
              omega
            · simp only [List.length_take]
              omega
            · simp only
              omega
            · exact entryPres_take hfold.1.entries (Nat.le_refl _)
            · intro hk
              have := hfold.2 hk
              simp only at this ⊢
              omega
        | ifThenElse g t e? =>
          simp only at ho
          cases h1 : evalExpr eng n { s with st := st0 } g with
          | none => rw [h1] at ho; exact Option.noConfusion ho
          | some p =>
            obtain ⟨rg, s1⟩ := p
            rw [h1] at ho
            have hg := ihE eng _ g _ _ h1
            cases rg with
            | error er =>
              simp only at ho
              obtain ⟨rfl, rfl⟩ := Prod.mk.inj (Option.some.inj ho)
              exact hg
            | ok gv =>
              simp only at ho
              cases hab : gv.asBool with
              | error u =>
                rw [hab] at ho
                simp only at ho
                obtain ⟨rfl, rfl⟩ := Prod.mk.inj (Option.some.inj ho)
                exact stepOK_any _ hg trivial
              | ok bb =>
                rw [hab] at ho
                cases bb with
                | true =>
                  simp only at ho
                  exact stepOK_trans hg trivial (ihS eng s1 t _ _ ho)
                | false =>
                  simp only at ho
                  cases e? with
                  | some es =>
                    simp only at ho
                    exact stepOK_trans hg trivial (ihS eng s1 es _ _ ho)
                  | none =>
                    simp only at ho
                    obtain ⟨rfl, rfl⟩ := Prod.mk.inj (Option.some.inj ho)
                    exact stepOK_any _ hg trivial
        | whileS g body => exact ihW eng _ g body _ _ ho
        | loopS body => exact ihL eng _ body _ _ ho
        | forS name iterE body =>
          simp only at ho
          cases h1 : evalExpr eng n { s with st := st0 } iterE with
          | none => rw [h1] at ho; exact Option.noConfusion ho
          | some p =>
            obtain ⟨rv, s1⟩ := p
            rw [h1] at ho
            have hv := ihE eng _ iterE _ _ h1
            cases rv with
            | error er =>
              simp only at ho
              obtain ⟨rfl, rfl⟩ := Prod.mk.inj (Option.some.inj ho)
              exact hv
            | ok iterVal =>
              simp only at ho
              cases hgi : eng.getIter iterVal.typeId with
              | none =>
                rw [hgi] at ho
                simp only at ho
                obtain ⟨rfl, rfl⟩ := Prod.mk.inj (Option.some.inj ho)
                exact stepOK_any _ hv trivial
              | some f =>
                rw [hgi] at ho
                simp only at ho
                have hpush : Pres s1 { s1 with
                    scope := s1.scope ++ [⟨name, .normal, none, .unit⟩]
                    st := { s1.st with
                      scopeLevel := s1.st.scopeLevel + 1 } } :=
                  ⟨by simp, Nat.le_refl _, by simp,
                    entryPres_append s1.scope _⟩
                simp only [List.length_append, List.length_cons,
                  List.length_nil, Nat.add_sub_cancel] at ho
                have hslot : ∃ en, (s1.scope ++
                    [(⟨name, .normal, none, .unit⟩ : ScopeEntry)])[
                      s1.scope.length]? = some en ∧
                    en.typ ≠ EntryType.constant := by
                  refine ⟨⟨name, .normal, none, .unit⟩, ?_,
                    fun hc => EntryType.noConfusion hc⟩
                  exact List.getElem?_concat_length _ _
                cases hfi : forIterate eng n
                    { s1 with
                      scope := s1.scope ++ [⟨name, .normal, none, .unit⟩]
                      st := { s1.st with
                        scopeLevel := s1.st.scopeLevel + 1 } }
                    s1.scope.length body (f iterVal) with
                | none => rw [hfi] at ho; exact Option.noConfusion ho
                | some p2 =>
                  obtain ⟨rf, s3⟩ := p2
                  rw [hfi] at ho
                  obtain ⟨hfs, hnb⟩ := ihF eng _ _ body (f iterVal) _ _
                    hslot hfi
                  cases rf with
                  | error er =>
                    simp only at ho
                    obtain ⟨rfl, rfl⟩ := Prod.mk.inj (Option.some.inj ho)
                    refine ⟨hv.1.trans (hpush.trans hfs.1), ?_⟩
                    intro hk
                    obtain ⟨bbk, rfl⟩ := okOrBreak_error hk
                    exact absurd rfl (hnb bbk)
                  | ok vvv =>
                    simp only at ho
                    obtain ⟨rfl, rfl⟩ := Prod.mk.inj (Option.some.inj ho)
                    have hpl : s1.scope.length + 1 ≤ s3.scope.length := by
                      have := hfs.1.scopeLen
                      dsimp only at this
                      simpa using this
                    have hsl : s.scope.length ≤ s1.scope.length := by
                      have := hv.1.scopeLen
                      dsimp only at this
                      exact this
                    have hlv3 : s3.st.scopeLevel = s1.st.scopeLevel + 1 := by
                      have := hfs.2 trivial
                      dsimp only at this
                      exact this
                    have hlv1 : s1.st.scopeLevel = st0.scopeLevel := by
                      have := hv.2 trivial
                      dsimp only at this
                      exact this
                    have hml : s.mods.length ≤ s3.mods.length := by
                      have hm1 := hv.1.modsLen
                      have hm2 := hfs.1.modsLen
                      dsimp only at hm1 hm2
                      omega
                    refine ⟨⟨?_, ?_, ?_, ?_⟩, ?_⟩
                    · dsimp only
                      simp only [List.length_take]
                      omega
                    · dsimp only
                      exact hml
                    · dsimp only
                      omega
                    · dsimp only
                      refine entryPres_take ?_ ?_
                      · exact entryPres_trans hv.1.entries
                          (entryPres_trans (entryPres_append s1.scope _)
                            hfs.1.entries)
                      · omega
                    · intro hk
                      dsimp only
                      omega
        | continueS =>
          obtain ⟨rfl, rfl⟩ := Prod.mk.inj (Option.some.inj ho)
          exact stepOK_refl ..
        | breakS =>
          obtain ⟨rfl, rfl⟩ := Prod.mk.inj (Option.some.inj ho)
          exact stepOK_refl ..
        | returnS v =>
          cases v with
          | some e =>
            simp only at ho
            cases h1 : evalExpr eng n { s with st := st0 } e with
            | none => rw [h1] at ho; exact Option.noConfusion ho
            | some p =>
              obtain ⟨rv, s1⟩ := p
              rw [h1] at ho
              have hv := ihE eng _ e _ _ h1
              cases rv with
              | error er =>
                simp only at ho
                obtain ⟨rfl, rfl⟩ := Prod.mk.inj (Option.some.inj ho)
                exact hv
              | ok vv =>
                simp only at ho
                obtain ⟨rfl, rfl⟩ := Prod.mk.inj (Option.some.inj ho)
                exact stepOK_any _ hv trivial
          | none =>
            simp only at ho
            obtain ⟨rfl, rfl⟩ := Prod.mk.inj (Option.some.inj ho)
            exact stepOK_refl ..
        | throwS v =>
          cases v with
          | some e =>
            simp only at ho
            cases h1 : evalExpr eng n { s with st := st0 } e with
            | none => rw [h1] at ho; exact Option.noConfusion ho
            | some p =>
              obtain ⟨rv, s1⟩ := p
              rw [h1] at ho
              have hv := ihE eng _ e _ _ h1
              cases rv with
              | error er =>
                simp only at ho
                obtain ⟨rfl, rfl⟩ := Prod.mk.inj (Option.some.inj ho)
                exact hv
              | ok vv =>
                simp only at ho
                obtain ⟨rfl, rfl⟩ := Prod.mk.inj (Option.some.inj ho)
                exact stepOK_any _ hv trivial
          | none =>
            simp only at ho
            obtain ⟨rfl, rfl⟩ := Prod.mk.inj (Option.some.inj ho)
            exact stepOK_refl ..
        | letS name init =>
          cases init with
          | some e =>
            simp only at ho
            cases h1 : evalExpr eng n { s with st := st0 } e with
            | none => rw [h1] at ho; exact Option.noConfusion ho
            | some p =>
              obtain ⟨rv, s1⟩ := p
              rw [h1] at ho
              have hv := ihE eng _ e _ _ h1
              cases rv with
              | error er =>
                simp only at ho
                obtain ⟨rfl, rfl⟩ := Prod.mk.inj (Option.some.inj ho)
                exact hv
              | ok vv =>
                simp only at ho
                obtain ⟨rfl, rfl⟩ := Prod.mk.inj (Option.some.inj ho)
                exact stepOK_trans hv trivial (stepOK_push s1 _)
          | none =>
            simp only at ho
            obtain ⟨rfl, rfl⟩ := Prod.mk.inj (Option.some.inj ho)
            exact stepOK_push _ _
        | constS name e =>
          simp only at ho
          split at ho
          · cases h1 : evalExpr eng n { s with st := st0 } e with
            | none => rw [h1] at ho; exact Option.noConfusion ho
            | some p =>
              obtain ⟨rv, s1⟩ := p
              rw [h1] at ho
              have hv := ihE eng _ e _ _ h1
              cases rv with
              | error er =>
                simp only at ho
                obtain ⟨rfl, rfl⟩ := Prod.mk.inj (Option.some.inj ho)
                exact hv
              | ok vv =>
                simp only at ho
                obtain ⟨rfl, rfl⟩ := Prod.mk.inj (Option.some.inj ho)
                exact stepOK_trans hv trivial (stepOK_push s1 _)
          · obtain ⟨rfl, rfl⟩ := Prod.mk.inj (Option.some.inj ho)
            exact stepOK_refl ..
        | importS pathE aliasName =>
          simp only at ho
          split at ho
          · obtain ⟨rfl, rfl⟩ := Prod.mk.inj (Option.some.inj ho)
            exact stepOK_refl ..
          · cases h1 : evalExpr eng n { s with st := st0 } pathE with
            | none => rw [h1] at ho; exact Option.noConfusion ho
            | some p =>
              obtain ⟨rv, s1⟩ := p
              rw [h1] at ho
              have hv := ihE eng _ pathE _ _ h1
              cases rv with
              | error er =>
                simp only at ho
                obtain ⟨rfl, rfl⟩ := Prod.mk.inj (Option.some.inj ho)
                exact hv
              | ok vv =>
                simp only at ho
                cases vv <;> try (
                  simp only at ho
                  obtain ⟨rfl, rfl⟩ := Prod.mk.inj (Option.some.inj ho)
                  exact stepOK_any _ hv trivial)
                case str path =>
                  simp only at ho
                  cases hres : eng.resolver with
                  | none =>
                    rw [hres] at ho
                    simp only at ho
                    obtain ⟨rfl, rfl⟩ := Prod.mk.inj (Option.some.inj ho)
                    exact stepOK_any _ hv trivial
                  | some resolve =>
                    rw [hres] at ho
                    simp only at ho
                    cases hrr : resolve path with
                    | error er =>
                      rw [hrr] at ho
                      simp only at ho
                      obtain ⟨rfl, rfl⟩ := Prod.mk.inj (Option.some.inj ho)
                      exact stepOK_any _ hv trivial
                    | ok u =>
                      rw [hrr] at ho
                      simp only at ho
                      obtain ⟨rfl, rfl⟩ := Prod.mk.inj (Option.some.inj ho)
                      refine stepOK_trans hv trivial ⟨⟨Nat.le_refl _, by simp,
                        Nat.le_refl _, entryPres_refl _⟩, fun _ => rfl⟩
        | exportS ids =>
          simp only at ho
          rcases hex : exportList s.scope ids with ⟨oe, sc⟩
          rw [hex] at ho
          have hsp := exportList_spec ids s.scope
          rw [hex] at hsp
          cases oe with
          | some er =>
            simp only at ho
            obtain ⟨rfl, rfl⟩ := Prod.mk.inj (Option.some.inj ho)
            exact ⟨⟨Nat.le_of_eq hsp.1.symm, Nat.le_refl _, Nat.le_refl _,
              hsp.2⟩, fun _ => rfl⟩
          | none =>
            simp only at ho
            obtain ⟨rfl, rfl⟩ := Prod.mk.inj (Option.some.inj ho)
            exact ⟨⟨Nat.le_of_eq hsp.1.symm, Nat.le_refl _, Nat.le_refl _,
              hsp.2⟩, fun _ => rfl⟩
    -- evalStmts
    · intro eng s l r s2 h
      cases l with
      | nil =>
        rw [evalStmts] at h
        obtain ⟨rfl, rfl⟩ := Prod.mk.inj (Option.some.inj h)
        exact stepOK_refl ..
      | cons stmt rest =>
        rw [evalStmts] at h
        cases h1 : evalStmt eng n s stmt with
        | none => rw [h1] at h; exact Option.noConfusion h
        | some p =>
          obtain ⟨r1, s1⟩ := p
          rw [h1] at h
          have hfirst := ihS eng s stmt _ _ h1
          cases r1 with
          | error er =>
            simp only at h
            obtain ⟨rfl, rfl⟩ := Prod.mk.inj (Option.some.inj h)
            exact hfirst
          | ok v =>
            simp only at h
            cases rest with
            | nil =>
              obtain ⟨rfl, rfl⟩ := Prod.mk.inj (Option.some.inj h)
              exact hfirst
            | cons s3 rest2 =>
              exact stepOK_trans hfirst trivial (ihSs eng s1 _ _ _ h)
    -- whileLoop
    · intro eng s g b r s2 h
      rw [whileLoop] at h
      cases h1 : evalExpr eng n s g with
      | none => rw [h1] at h; exact Option.noConfusion h
      | some p =>
        obtain ⟨rg, s1⟩ := p
        rw [h1] at h
        have hg := ihE eng s g _ _ h1
        cases rg with
        | error er =>
          simp only at h
          obtain ⟨rfl, rfl⟩ := Prod.mk.inj (Option.some.inj h)
          exact hg
        | ok gv =>
          simp only at h
          cases hab : gv.asBool with
          | error u =>
            rw [hab] at h
            simp only at h
            obtain ⟨rfl, rfl⟩ := Prod.mk.inj (Option.some.inj h)
            exact stepOK_any _ hg trivial
          | ok bb =>
            rw [hab] at h
            cases bb with
            | false =>
              simp only at h
              obtain ⟨rfl, rfl⟩ := Prod.mk.inj (Option.some.inj h)
              exact stepOK_any _ hg trivial
            | true =>
              simp only at h
              cases h2 : evalStmt eng n s1 b with
              | none => rw [h2] at h; exact Option.noConfusion h
              | some p2 =>
                obtain ⟨rb, s3⟩ := p2
                rw [h2] at h
                have hb := ihS eng s1 b _ _ h2
                cases rb with
                | ok v =>
                  simp only at h
                  exact stepOK_trans (stepOK_trans hg trivial hb) trivial
                    (ihW eng s3 g b _ _ h)
                | error er =>
                  simp only at h
                  split at h
                  · exact stepOK_trans (stepOK_trans hg trivial hb) trivial
                      (ihW eng s3 g b _ _ h)
                  · obtain ⟨rfl, rfl⟩ := Prod.mk.inj (Option.some.inj h)
                    exact stepOK_any _ (stepOK_trans hg trivial hb) trivial
                  · obtain ⟨rfl, rfl⟩ := Prod.mk.inj (Option.some.inj h)
                    exact stepOK_trans hg trivial hb
    -- loopLoop
    · intro eng s b r s2 h
      rw [loopLoop] at h
      cases h1 : evalStmt eng n s b with
      | none => rw [h1] at h; exact Option.noConfusion h
      | some p =>
        obtain ⟨rb, s1⟩ := p
        rw [h1] at h
        have hb := ihS eng s b _ _ h1
        cases rb with
        | ok v =>
          simp only at h
          exact stepOK_trans hb trivial (ihL eng s1 b _ _ h)
        | error er =>
          simp only at h
          split at h
          · exact stepOK_trans hb trivial (ihL eng s1 b _ _ h)
          · obtain ⟨rfl, rfl⟩ := Prod.mk.inj (Option.some.inj h)
            exact stepOK_any _ hb trivial
          · obtain ⟨rfl, rfl⟩ := Prod.mk.inj (Option.some.inj h)
            exact hb
    -- forIterate
    · intro eng s idx b vs r s2 hslot h
      cases vs with
      | nil =>
        rw [forIterate] at h
        obtain ⟨rfl, rfl⟩ := Prod.mk.inj (Option.some.inj h)
        exact ⟨stepOK_refl .., fun bb hcon => Except.noConfusion hcon⟩
      | cons v rest =>
        obtain ⟨en, hen, hent⟩ := hslot
        rw [forIterate] at h
        simp only at h
        have hwlen : (scopeSetVal s.scope idx v).length = s.scope.length :=
          scopeSetVal_length ..
        have hwp : entryPres s.scope (scopeSetVal s.scope idx v) :=
          entryPres_setVal (fun en2 hen2 => by
            rw [hen] at hen2
            cases Option.some.inj hen2
            exact hent)
        have hW : StepOK s (Except.ok Dyn.unit)
            { s with scope := scopeSetVal s.scope idx v } :=
          ⟨⟨Nat.le_of_eq hwlen.symm, Nat.le_refl _, Nat.le_refl _, hwp⟩,
            fun _ => rfl⟩
        have hen1 : (scopeSetVal s.scope idx v)[idx]? =
            some { en with val := v } := by
          unfold scopeSetVal
          rw [hen]
          exact List.getElem?_set_eq_of_lt _ (getElem?_some_lt hen)
        rcases hgov : eng.incOperations s.st with ⟨st2, o⟩
        rw [hgov] at h
        have hlvl : st2.scopeLevel = s.st.scopeLevel := by
          have := incOps_scopeLevel eng s.st; rw [hgov] at this; exact this
        cases o with
        | some er =>
          simp only at h
          obtain ⟨rfl, rfl⟩ := Prod.mk.inj (Option.some.inj h)
          refine ⟨stepOK_trans hW trivial (stepOK_st _ _ st2 hlvl), ?_⟩
          intro bb hcon
          have her : er = .loopBreak bb := by injection hcon
          rcases incOps_err_shape hgov with rfl | rfl <;> cases her
        | none =>
          simp only at h
          have hpre : StepOK s (Except.ok Dyn.unit)
              { s with scope := scopeSetVal s.scope idx v, st := st2 } :=
            stepOK_trans hW trivial (stepOK_st _ _ st2 hlvl)
          cases hb : evalStmt eng n
              { s with scope := scopeSetVal s.scope idx v, st := st2 } b with
          | none => rw [hb] at h; exact Option.noConfusion h
          | some p =>
            obtain ⟨rb, s3⟩ := p
            rw [hb] at h
            have hbS := ihS eng _ b _ _ hb
            have hslot3 : ∃ en2, s3.scope[idx]? = some en2 ∧
                en2.typ ≠ EntryType.constant := by
              obtain ⟨e2, hg2, _, ht2, _⟩ :=
                hbS.1.entries idx { en with val := v } hen1
              exact ⟨e2, hg2, by rw [ht2]; exact hent⟩
            cases rb with
            | ok vv =>
              simp only at h
              obtain ⟨hr, hnb⟩ := ihF eng s3 idx b rest _ _ hslot3 h
              exact ⟨stepOK_trans hpre trivial (stepOK_trans hbS trivial hr), hnb⟩
            | error er =>
              simp only at h
              split at h
              · obtain ⟨hr, hnb⟩ := ihF eng s3 idx b rest _ _ hslot3 h
                exact ⟨stepOK_trans hpre trivial
                  (stepOK_trans hbS trivial hr), hnb⟩
              · obtain ⟨rfl, rfl⟩ := Prod.mk.inj (Option.some.inj h)
                exact ⟨stepOK_any _ (stepOK_trans hpre trivial hbS) trivial,
                  fun bb hcon => Except.noConfusion hcon⟩
              · obtain ⟨rfl, rfl⟩ := Prod.mk.inj (Option.some.inj h)
                refine ⟨stepOK_trans hpre trivial hbS, ?_⟩
                intro bb hcon
                have her : er = .loopBreak bb := by injection hcon
                subst her
                cases bb <;> simp_all
    -- evalExpr
    · intro eng s e r s2 h
      rw [evalExpr] at h
      rcases hgov : eng.incOperations s.st with ⟨st0, o⟩
      rw [hgov] at h
      have hlvl : st0.scopeLevel = s.st.scopeLevel := by
        have := incOps_scopeLevel eng s.st; rw [hgov] at this; exact this
      cases o with
      | some er =>
        simp only at h
        obtain ⟨rfl, rfl⟩ := Prod.mk.inj (Option.some.inj h)
        exact stepOK_st s _ st0 hlvl
      | none =>
        simp only at h
        refine stepOK_trans (stepOK_st s (Except.ok Dyn.unit) st0 hlvl)
          trivial ?_
        refine wrapCds_stepOK h ?_
        intro r0 s0 ho
        cases e with
        | intC i =>
          obtain ⟨rfl, rfl⟩ := Prod.mk.inj (Option.some.inj ho)
          exact stepOK_refl ..
        | charC c =>
          obtain ⟨rfl, rfl⟩ := Prod.mk.inj (Option.some.inj ho)
          exact stepOK_refl ..
        | strC str =>
          obtain ⟨rfl, rfl⟩ := Prod.mk.inj (Option.some.inj ho)
          exact stepOK_refl ..
        | fnPtrC nm =>
          obtain ⟨rfl, rfl⟩ := Prod.mk.inj (Option.some.inj ho)
          exact stepOK_refl ..
        | trueC =>
          obtain ⟨rfl, rfl⟩ := Prod.mk.inj (Option.some.inj ho)
          exact stepOK_refl ..
        | falseC =>
          obtain ⟨rfl, rfl⟩ := Prod.mk.inj (Option.some.inj ho)
          exact stepOK_refl ..
        | unitC =>
          obtain ⟨rfl, rfl⟩ := Prod.mk.inj (Option.some.inj ho)
          exact stepOK_refl ..
        | var nm k =>
          simp only at ho
          split at ho
          · split at ho <;>
              (obtain ⟨rfl, rfl⟩ := Prod.mk.inj (Option.some.inj ho);
               exact stepOK_refl ..)
          · split at ho <;>
              (obtain ⟨rfl, rfl⟩ := Prod.mk.inj (Option.some.inj ho);
               exact stepOK_refl ..)
        | stmtE stmt => exact ihS eng _ stmt _ _ ho
        | assignment lhs op rhs => exact ihA eng _ lhs op rhs _ _ ho
        | index lhs rhs => exact ihC eng _ (Expr.index lhs rhs) none _ _ ho
        | inE a bb => exact ihI eng _ a bb _ _ ho
        | arrayC elems =>
          simp only at ho
          cases h1 : evalExprList eng n { s with st := st0 } elems with
          | none => rw [h1] at ho; exact Option.noConfusion ho
          | some p =>
            obtain ⟨r1, s1⟩ := p
            rw [h1] at ho
            have hl := ihEL eng _ elems _ _ h1
            cases r1 with
            | error er =>
              simp only at ho
              obtain ⟨rfl, rfl⟩ := Prod.mk.inj (Option.some.inj ho)
              exact stepOK_err_cast hl
            | ok vs =>
              simp only at ho
              obtain ⟨rfl, rfl⟩ := Prod.mk.inj (Option.some.inj ho)
              exact stepOK_any _ hl trivial
        | mapC elems =>
          simp only at ho
          cases h1 : evalMapList eng n { s with st := st0 } elems with
          | none => rw [h1] at ho; exact Option.noConfusion ho
          | some p =>
            obtain ⟨r1, s1⟩ := p
            rw [h1] at ho
            have hl := ihML eng _ elems _ _ h1
            cases r1 with
            | error er =>
              simp only at ho
              obtain ⟨rfl, rfl⟩ := Prod.mk.inj (Option.some.inj ho)
              exact stepOK_err_cast hl
            | ok vs =>
              simp only at ho
              obtain ⟨rfl, rfl⟩ := Prod.mk.inj (Option.some.inj ho)
              exact stepOK_any _ hl trivial
        | fnCall nm args dv =>
          simp only at ho
          cases h1 : evalExprList eng n { s with st := st0 } args with
          | none => rw [h1] at ho; exact Option.noConfusion ho
          | some p =>
            obtain ⟨r1, s1⟩ := p
            rw [h1] at ho
            have hl := ihEL eng _ args _ _ h1
            cases r1 with
            | error er =>
              simp only at ho
              obtain ⟨rfl, rfl⟩ := Prod.mk.inj (Option.some.inj ho)
              exact stepOK_err_cast hl
            | ok vs =>
              simp only at ho
              split at ho <;>
                (obtain ⟨rfl, rfl⟩ := Prod.mk.inj (Option.some.inj ho);
                 exact stepOK_any _ hl trivial)
        | andE lhs rhs =>
          simp only at ho
          cases h1 : evalExpr eng n { s with st := st0 } lhs with
          | none => rw [h1] at ho; exact Option.noConfusion ho
          | some p =>
            obtain ⟨r1, s1⟩ := p
            rw [h1] at ho
            have hl := ihE eng _ lhs _ _ h1
            cases r1 with
            | error er =>
              simp only at ho
              obtain ⟨rfl, rfl⟩ := Prod.mk.inj (Option.some.inj ho)
              exact hl
            | ok lv =>
              simp only at ho
              cases hab : lv.asBool with
              | error u =>
                rw [hab] at ho
                simp only at ho
                obtain ⟨rfl, rfl⟩ := Prod.mk.inj (Option.some.inj ho)
                exact stepOK_any _ hl trivial
              | ok lb =>
                rw [hab] at ho
                cases lb with
                | false =>
                  simp only at ho
                  obtain ⟨rfl, rfl⟩ := Prod.mk.inj (Option.some.inj ho)
                  exact stepOK_any _ hl trivial
                | true =>
                  simp only at ho
                  cases h2 : evalExpr eng n s1 rhs with
                  | none => rw [h2] at ho; exact Option.noConfusion ho
                  | some p2 =>
                    obtain ⟨r2, s22⟩ := p2
                    rw [h2] at ho
                    have hr := ihE eng s1 rhs _ _ h2
                    cases r2 with
                    | error er =>
                      simp only at ho
                      obtain ⟨rfl, rfl⟩ := Prod.mk.inj (Option.some.inj ho)
                      exact stepOK_trans hl trivial hr
                    | ok rv =>
                      simp only at ho
                      split at ho <;>
                        (obtain ⟨rfl, rfl⟩ :=
                          Prod.mk.inj (Option.some.inj ho);
                         exact stepOK_any _
                           (stepOK_trans hl trivial hr) trivial)
        | orE lhs rhs =>
          simp only at ho
          cases h1 : evalExpr eng n { s with st := st0 } lhs with
          | none => rw [h1] at ho; exact Option.noConfusion ho
          | some p =>
            obtain ⟨r1, s1⟩ := p
            rw [h1] at ho
            have hl := ihE eng _ lhs _ _ h1
            cases r1 with
            | error er =>
              simp only at ho
              obtain ⟨rfl, rfl⟩ := Prod.mk.inj (Option.some.inj ho)
              exact hl
            | ok lv =>
              simp only at ho
              cases hab : lv.asBool with
              | error u =>
                rw [hab] at ho
                simp only at ho
                obtain ⟨rfl, rfl⟩ := Prod.mk.inj (Option.some.inj ho)
                exact stepOK_any _ hl trivial
              | ok lb =>
                rw [hab] at ho
                cases lb with
                | true =>
                  simp only at ho
                  obtain ⟨rfl, rfl⟩ := Prod.mk.inj (Option.some.inj ho)
                  exact stepOK_any _ hl trivial
                | false =>
                  simp only at ho
                  cases h2 : evalExpr eng n s1 rhs with
                  | none => rw [h2] at ho; exact Option.noConfusion ho
                  | some p2 =>
                    obtain ⟨r2, s22⟩ := p2
                    rw [h2] at ho
                    have hr := ihE eng s1 rhs _ _ h2
                    cases r2 with
                    | error er =>
                      simp only at ho
                      obtain ⟨rfl, rfl⟩ := Prod.mk.inj (Option.some.inj ho)
                      exact stepOK_trans hl trivial hr
                    | ok rv =>
                      simp only at ho
                      split at ho <;>
                        (obtain ⟨rfl, rfl⟩ :=
                          Prod.mk.inj (Option.some.inj ho);
                         exact stepOK_any _
                           (stepOK_trans hl trivial hr) trivial)
    -- evalAssignment
    · intro eng s lhs op rhs r s2 h
      rw [evalAssignment] at h
      cases h1 : evalExpr eng n s rhs with
      | none => rw [h1] at h; exact Option.noConfusion h
      | some p =>
        obtain ⟨r1, s1⟩ := p
        rw [h1] at h
        have hrhs := ihE eng s rhs _ _ h1
        cases r1 with
        | error er =>
          simp only at h
          obtain ⟨rfl, rfl⟩ := Prod.mk.inj (Option.some.inj h)
          exact hrhs
        | ok rhsVal =>
          simp only at h
          cases lhs
          case var name k =>
            simp only at h
            cases hse : searchScopeOnly s1.scope s1.st s1.thisPtr name k with
            | error er =>
              rw [hse] at h
              simp only at h
              obtain ⟨rfl, rfl⟩ := Prod.mk.inj (Option.some.inj h)
              exact stepOK_any _ hrhs trivial
            | ok found =>
              rw [hse] at h
              simp only at h
              rcases hgov : eng.incOperations s1.st with ⟨st2, o⟩
              rw [hgov] at h
              have hlvl : st2.scopeLevel = s1.st.scopeLevel := by
                have := incOps_scopeLevel eng s1.st; rw [hgov] at this
                exact this
              cases o with
              | some er =>
                simp only at h
                obtain ⟨rfl, rfl⟩ := Prod.mk.inj (Option.some.inj h)
                exact stepOK_trans hrhs trivial (stepOK_st _ _ st2 hlvl)
              | none =>
                simp only at h
                have hpre := stepOK_trans hrhs trivial
                  (stepOK_st s1 (Except.ok Dyn.unit) st2 hlvl)
                cases found with
                | thisF oldv =>
                  simp only at h
                  split at h
                  · obtain ⟨rfl, rfl⟩ := Prod.mk.inj (Option.some.inj h)
                    exact stepOK_trans hpre trivial (stepOK_thisPtr _ _ _)
                  · split at h
                    · obtain ⟨rfl, rfl⟩ := Prod.mk.inj (Option.some.inj h)
                      exact stepOK_any _ hpre trivial
                    · obtain ⟨rfl, rfl⟩ := Prod.mk.inj (Option.some.inj h)
                      exact stepOK_trans hpre trivial (stepOK_thisPtr _ _ _)
                    · split at h
                      · obtain ⟨rfl, rfl⟩ := Prod.mk.inj (Option.some.inj h)
                        exact stepOK_any _ hpre trivial
                      · obtain ⟨rfl, rfl⟩ := Prod.mk.inj (Option.some.inj h)
                        exact stepOK_trans hpre trivial (stepOK_thisPtr _ _ _)
                | slot i en =>
                  simp only at h
                  have hget := searchScope_slot_get hse
                  cases htyp : en.typ with
                  | constant =>
                    rw [htyp] at h
                    simp only at h
                    obtain ⟨rfl, rfl⟩ := Prod.mk.inj (Option.some.inj h)
                    exact stepOK_any _ hpre trivial
                  | normal =>
                    rw [htyp] at h
                    simp only at h
                    have hn : ∀ en2, s1.scope[i]? = some en2 →
                        en2.typ ≠ EntryType.constant := by
                      intro en2 hen2
                      rw [hget] at hen2
                      cases Option.some.inj hen2
                      intro hcon
                      rw [htyp] at hcon
                      exact EntryType.noConfusion hcon
                    have hwrite : ∀ nv2 : Dyn,
                        StepOK { s1 with st := st2 } (Except.ok Dyn.unit)
                          { s1 with scope := scopeSetVal s1.scope i nv2, st := st2 } :=
                      fun nv2 =>
                        ⟨⟨Nat.le_of_eq (scopeSetVal_length ..).symm,
                          Nat.le_refl _, Nat.le_refl _,
                          entryPres_setVal hn⟩, fun _ => rfl⟩
                    split at h
                    · obtain ⟨rfl, rfl⟩ := Prod.mk.inj (Option.some.inj h)
                      exact stepOK_trans hpre trivial (hwrite rhsVal)
                    · split at h
                      · obtain ⟨rfl, rfl⟩ := Prod.mk.inj (Option.some.inj h)
                        exact stepOK_any _ hpre trivial
                      · obtain ⟨rfl, rfl⟩ := Prod.mk.inj (Option.some.inj h)
                        exact stepOK_trans hpre trivial (hwrite _)
                      · split at h
                        · obtain ⟨rfl, rfl⟩ :=
                            Prod.mk.inj (Option.some.inj h)
                          exact stepOK_any _ hpre trivial
                        · obtain ⟨rfl, rfl⟩ :=
                            Prod.mk.inj (Option.some.inj h)
                          exact stepOK_trans hpre trivial (hwrite _)
          case index a b =>
            simp only at h
            by_cases hop : op = ""
            · rw [if_pos hop] at h
              try simp only at h
              cases h2 : evalDotIndexChain eng n s1 (.index a b)
                  (some rhsVal) with
              | none => rw [h2] at h; exact Option.noConfusion h
              | some p2 =>
                obtain ⟨r2, s3⟩ := p2
                rw [h2] at h
                have hch := ihC eng s1 _ _ _ _ h2
                cases r2 with
                | error er =>
                  simp only at h
                  obtain ⟨rfl, rfl⟩ := Prod.mk.inj (Option.some.inj h)
                  exact stepOK_trans hrhs trivial hch
                | ok vv =>
                  simp only at h
                  obtain ⟨rfl, rfl⟩ := Prod.mk.inj (Option.some.inj h)
                  exact stepOK_any _ (stepOK_trans hrhs trivial hch) trivial
            · rw [if_neg hop] at h
              try simp only at h
              cases h2 : evalExpr eng n s1 (.index a b) with
              | none => rw [h2] at h; exact Option.noConfusion h
              | some p2 =>
                obtain ⟨r2, s22⟩ := p2
                rw [h2] at h
                have hlhs := ihE eng s1 _ _ _ h2
                cases r2 with
                | error er =>
                  simp only at h
                  obtain ⟨rfl, rfl⟩ := Prod.mk.inj (Option.some.inj h)
                  exact stepOK_trans hrhs trivial hlhs
                | ok lv =>
                  simp only at h
                  cases hcall : callFnRaw eng (op.dropRight 1) [lv, rhsVal]
                      none with
                  | error er =>
                    rw [hcall] at h
                    simp only at h
                    obtain ⟨rfl, rfl⟩ := Prod.mk.inj (Option.some.inj h)
                    exact stepOK_any _ (stepOK_trans hrhs trivial hlhs) trivial
                  | ok newVal =>
                    rw [hcall] at h
                    simp only at h
                    have hpre2 := stepOK_trans hrhs trivial hlhs
                    cases h3 : evalDotIndexChain eng n s22 (.index a b)
                        (some newVal) with
                    | none => rw [h3] at h; exact Option.noConfusion h
                    | some p3 =>
                      obtain ⟨r3, s33⟩ := p3
                      rw [h3] at h
                      have hch := ihC eng s22 _ _ _ _ h3
                      cases r3 with
                      | error er =>
                        simp only at h
                        obtain ⟨rfl, rfl⟩ := Prod.mk.inj (Option.some.inj h)
                        exact stepOK_trans hpre2 trivial hch
                      | ok vv =>
                        simp only at h
                        obtain ⟨rfl, rfl⟩ :=
                          Prod.mk.inj (Option.some.inj h)
                        exact stepOK_any _ (stepOK_trans hpre2 trivial hch)
                          trivial
          all_goals (
            try simp only at h
            by_cases hop : op = ""
            · rw [if_pos hop] at h
              try simp only at h
              split at h <;>
                (obtain ⟨rfl, rfl⟩ := Prod.mk.inj (Option.some.inj h);
                 exact stepOK_any _ hrhs trivial)
            · rw [if_neg hop] at h
              try simp only at h
              split at h
              · exact Option.noConfusion h
              · rename_i er s22 heq2
                obtain ⟨rfl, rfl⟩ := Prod.mk.inj (Option.some.inj h)
                split at heq2
                · exact Option.noConfusion heq2
                · rename_i er2 s3 heq3
                  obtain ⟨he, rfl⟩ := Prod.mk.inj (Option.some.inj heq2)
                  cases he
                  exact stepOK_trans hrhs trivial (ihE eng s1 _ _ _ heq3)
                · rename_i lv s3 heq3
                  obtain ⟨he, rfl⟩ := Prod.mk.inj (Option.some.inj heq2)
                  exact stepOK_any _ (stepOK_trans hrhs trivial
                    (ihE eng s1 _ _ _ heq3)) trivial
              · rename_i newVal s22 heq2
                have hpre2 : StepOK s (Except.ok Dyn.unit) s22 := by
                  split at heq2
                  · exact Option.noConfusion heq2
                  · rename_i er2 s3 heq3
                    obtain ⟨he, hs⟩ := Prod.mk.inj (Option.some.inj heq2)
                    exact Except.noConfusion he
                  · rename_i lv s3 heq3
                    obtain ⟨he, rfl⟩ := Prod.mk.inj (Option.some.inj heq2)
                    exact stepOK_any _ (stepOK_trans hrhs trivial
                      (ihE eng s1 _ _ _ heq3)) trivial
                split at h <;>
                  (obtain ⟨rfl, rfl⟩ := Prod.mk.inj (Option.some.inj h);
                   exact stepOK_any _ hpre2 trivial))
    -- evalDotIndexChain
    · intro eng s e nv r s2 h
      cases e
      case index dotLhs dotRhs =>
        rw [evalDotIndexChain] at h
        try simp only at h
        cases h1 : collectIdxVals eng n s dotRhs with
        | none => rw [h1] at h; exact Option.noConfusion h
        | some p =>
          obtain ⟨r1, s1⟩ := p
          rw [h1] at h
          have hcol := ihCo eng s dotRhs _ _ h1
          cases r1 with
          | error er =>
            simp only at h
            obtain ⟨rfl, rfl⟩ := Prod.mk.inj (Option.some.inj h)
            exact stepOK_err_cast hcol
          | ok idxVals =>
            simp only at h
            cases dotLhs
            case var name k =>
              simp only at h
              rcases hgov : eng.incOperations s1.st with ⟨st2, o⟩
              rw [hgov] at h
              have hlvl : st2.scopeLevel = s1.st.scopeLevel := by
                have := incOps_scopeLevel eng s1.st; rw [hgov] at this
                exact this
              cases o with
              | some er =>
                simp only at h
                obtain ⟨rfl, rfl⟩ := Prod.mk.inj (Option.some.inj h)
                exact stepOK_trans hcol trivial (stepOK_st _ _ st2 hlvl)
              | none =>
                simp only at h
                have hpre := stepOK_trans hcol trivial
                  (stepOK_st s1 (Except.ok Dyn.unit) st2 hlvl)
                cases hse : searchScopeOnly s1.scope st2 s1.thisPtr name k with
                | error er =>
                  rw [hse] at h
                  simp only at h
                  obtain ⟨rfl, rfl⟩ := Prod.mk.inj (Option.some.inj h)
                  exact stepOK_any _ hpre trivial
                | ok found =>
                  rw [hse] at h
                  cases found with
                  | thisF v =>
                    simp only at h
                    rcases hch : chainHelper eng st2 v idxVals nv with ⟨st3, o3⟩
                    rw [hch] at h
                    have hlvl3 : st3.scopeLevel = st2.scopeLevel := by
                      have := chainHelper_scopeLevel eng idxVals st2 v nv
                      rw [hch] at this; exact this
                    have hpre2 := stepOK_trans hpre trivial
                      (stepOK_st { s1 with st := st2 } (Except.ok Dyn.unit)
                        st3 hlvl3)
                    cases o3 with
                    | error er =>
                      simp only at h
                      obtain ⟨rfl, rfl⟩ := Prod.mk.inj (Option.some.inj h)
                      exact stepOK_any _ hpre2 trivial
                    | ok pr =>
                      obtain ⟨res, newBase⟩ := pr
                      simp only at h
                      cases nv with
                      | none =>
                        simp only at h
                        obtain ⟨rfl, rfl⟩ := Prod.mk.inj (Option.some.inj h)
                        exact stepOK_any _ hpre2 trivial
                      | some nvv =>
                        simp only at h
                        obtain ⟨rfl, rfl⟩ := Prod.mk.inj (Option.some.inj h)
                        exact stepOK_trans hpre2 trivial
                          (stepOK_thisPtr _ _ _)
                  | slot i en =>
                    simp only at h
                    cases htyp : en.typ with
                    | constant =>
                      rw [htyp] at h
                      cases nv with
                      | some nvv =>
                        simp only at h
                        obtain ⟨rfl, rfl⟩ := Prod.mk.inj (Option.some.inj h)
                        exact stepOK_any _ hpre trivial
                      | none =>
                        simp only at h
                        rcases hch : chainHelper eng st2 en.val idxVals none
                          with ⟨st3, o3⟩
                        rw [hch] at h
                        have hlvl3 : st3.scopeLevel = st2.scopeLevel := by
                          have := chainHelper_scopeLevel eng idxVals st2
                            en.val none
                          rw [hch] at this; exact this
                        have hpre2 := stepOK_trans hpre trivial
                          (stepOK_st { s1 with st := st2 } (Except.ok Dyn.unit)
                            st3 hlvl3)
                        cases o3 with
                        | error er =>
                          simp only at h
                          obtain ⟨rfl, rfl⟩ := Prod.mk.inj (Option.some.inj h)
                          exact stepOK_any _ hpre2 trivial
                        | ok pr =>
                          obtain ⟨res, newBase⟩ := pr
                          simp only at h
                          obtain ⟨rfl, rfl⟩ := Prod.mk.inj (Option.some.inj h)
                          exact stepOK_any _ hpre2 trivial
                    | normal =>
                      rw [htyp] at h
                      simp only at h
                      rcases hch : chainHelper eng st2 en.val idxVals nv with
                        ⟨st3, o3⟩
                      rw [hch] at h
                      have hlvl3 : st3.scopeLevel = st2.scopeLevel := by
                        have := chainHelper_scopeLevel eng idxVals st2 en.val nv
                        rw [hch] at this; exact this
                      have hpre2 := stepOK_trans hpre trivial
                        (stepOK_st { s1 with st := st2 } (Except.ok Dyn.unit)
                          st3 hlvl3)
                      cases o3 with
                      | error er =>
                        simp only at h
                        obtain ⟨rfl, rfl⟩ := Prod.mk.inj (Option.some.inj h)
                        exact stepOK_any _ hpre2 trivial
                      | ok pr =>
                        obtain ⟨res, newBase⟩ := pr
                        simp only at h
                        cases nv with
                        | none =>
                          simp only at h
                          obtain ⟨rfl, rfl⟩ :=
                            Prod.mk.inj (Option.some.inj h)
                          exact stepOK_any _ hpre2 trivial
                        | some nvv =>
                          simp only at h
                          obtain ⟨rfl, rfl⟩ :=
                            Prod.mk.inj (Option.some.inj h)
                          have hget := searchScope_slot_get hse
                          have hn : ∀ en2,
                              s1.scope[i]? = some en2 →
                              en2.typ ≠ EntryType.constant := by
                            intro en2 hen2
                            rw [hget] at hen2
                            cases Option.some.inj hen2
                            intro hcon
                            rw [htyp] at hcon
                            exact EntryType.noConfusion hcon
                          refine stepOK_trans hpre2 trivial ?_
                          exact ⟨⟨Nat.le_of_eq (scopeSetVal_length ..).symm,
                            Nat.le_refl _, Nat.le_refl _,
                            entryPres_setVal hn⟩, fun _ => rfl⟩
            all_goals (
              try simp only at h
              cases nv with
              | some nvv =>
                simp only at h
                obtain ⟨rfl, rfl⟩ := Prod.mk.inj (Option.some.inj h)
                exact stepOK_any _ hcol trivial
              | none =>
                simp only at h
                cases hbe : evalExpr eng n s1 _ with
                | none => rw [hbe] at h; exact Option.noConfusion h
                | some p2 =>
                  obtain ⟨r2, s22⟩ := p2
                  rw [hbe] at h
                  have hbase := ihE eng s1 _ _ _ hbe
                  cases r2 with
                  | error er =>
                    simp only at h
                    obtain ⟨rfl, rfl⟩ := Prod.mk.inj (Option.some.inj h)
                    exact stepOK_trans hcol trivial hbase
                  | ok bv =>
                    simp only at h
                    rcases hch : chainHelper eng s22.st bv idxVals none with
                      ⟨st3, o3⟩
                    rw [hch] at h
                    have hlvl3 : st3.scopeLevel = s22.st.scopeLevel := by
                      have := chainHelper_scopeLevel eng idxVals s22.st bv none
                      rw [hch] at this; exact this
                    have hpre2 := stepOK_trans
                      (stepOK_trans hcol trivial hbase) trivial
                      (stepOK_st s22 (Except.ok Dyn.unit) st3 hlvl3)
                    cases o3 with
                    | error er =>
                      simp only at h
                      obtain ⟨rfl, rfl⟩ := Prod.mk.inj (Option.some.inj h)
                      exact stepOK_any _ hpre2 trivial
                    | ok pr =>
                      obtain ⟨res, nb⟩ := pr
                      simp only at h
                      obtain ⟨rfl, rfl⟩ := Prod.mk.inj (Option.some.inj h)
                      exact stepOK_any _ hpre2 trivial)
      all_goals (
        simp only [evalDotIndexChain] at h
        obtain ⟨rfl, rfl⟩ := Prod.mk.inj (Option.some.inj h)
        exact stepOK_refl ..)
    -- collectIdxVals
    · intro eng s e r s2 h
      rw [collectIdxVals] at h
      rcases hgov : eng.incOperations s.st with ⟨st0, o⟩
      rw [hgov] at h
      have hlvl : st0.scopeLevel = s.st.scopeLevel := by
        have := incOps_scopeLevel eng s.st; rw [hgov] at this; exact this
      cases o with
      | some er =>
        simp only at h
        obtain ⟨rfl, rfl⟩ := Prod.mk.inj (Option.some.inj h)
        exact stepOK_st s _ st0 hlvl
      | none =>
        simp only at h
        refine stepOK_trans (stepOK_st s (Except.ok Dyn.unit) st0 hlvl) trivial ?_
        cases e with
        | index lhs rhs =>
          simp only at h
          cases h1 : evalExpr eng n { s with st := st0 } lhs with
          | none => rw [h1] at h; exact Option.noConfusion h
          | some p =>
            obtain ⟨r1, s1⟩ := p
            rw [h1] at h
            have hv := ihE eng _ lhs _ _ h1
            cases r1 with
            | error er =>
              simp only at h
              obtain ⟨rfl, rfl⟩ := Prod.mk.inj (Option.some.inj h)
              exact stepOK_err_cast hv
            | ok v =>
              simp only at h
              cases h2 : collectIdxVals eng n s1 rhs with
              | none => rw [h2] at h; exact Option.noConfusion h
              | some p2 =>
                obtain ⟨r2, s22⟩ := p2
                rw [h2] at h
                have hc := ihCo eng s1 rhs _ _ h2
                cases r2 with
                | error er =>
                  simp only at h
                  obtain ⟨rfl, rfl⟩ := Prod.mk.inj (Option.some.inj h)
                  exact stepOK_trans hv trivial hc
                | ok vs =>
                  simp only at h
                  obtain ⟨rfl, rfl⟩ := Prod.mk.inj (Option.some.inj h)
                  exact stepOK_any _ (stepOK_trans hv trivial hc) trivial
        | _ =>
          all_goals (
            simp only at h
            first
            | (cases h1 : evalExpr eng n { s with st := st0 } _ with
               | none => rw [h1] at h; exact Option.noConfusion h
               | some p =>
                 obtain ⟨r1, s1⟩ := p
                 rw [h1] at h
                 have hv := ihE eng _ _ _ _ h1
                 cases r1 with
                 | error er =>
                   simp only at h
                   obtain ⟨rfl, rfl⟩ := Prod.mk.inj (Option.some.inj h)
                   exact stepOK_err_cast hv
                 | ok v =>
                   simp only at h
                   obtain ⟨rfl, rfl⟩ := Prod.mk.inj (Option.some.inj h)
                   exact stepOK_any _ hv trivial))
    -- evalExprList
    · intro eng s l r s2 h
      cases l with
      | nil =>
        rw [evalExprList] at h
        obtain ⟨rfl, rfl⟩ := Prod.mk.inj (Option.some.inj h)
        exact stepOK_refl ..
      | cons e rest =>
        rw [evalExprList] at h
        cases h1 : evalExpr eng n s e with
        | none => rw [h1] at h; exact Option.noConfusion h
        | some p =>
          obtain ⟨r1, s1⟩ := p
          rw [h1] at h
          have hv := ihE eng s e _ _ h1
          cases r1 with
          | error er =>
            simp only at h
            obtain ⟨rfl, rfl⟩ := Prod.mk.inj (Option.some.inj h)
            exact stepOK_err_cast hv
          | ok v =>
            simp only at h
            cases h2 : evalExprList eng n s1 rest with
            | none => rw [h2] at h; exact Option.noConfusion h
            | some p2 =>
              obtain ⟨r2, s22⟩ := p2
              rw [h2] at h
              have hrest := ihEL eng s1 rest _ _ h2
              cases r2 with
              | error er =>
                simp only at h
                obtain ⟨rfl, rfl⟩ := Prod.mk.inj (Option.some.inj h)
                exact stepOK_trans hv trivial hrest
              | ok vs =>
                simp only at h
                obtain ⟨rfl, rfl⟩ := Prod.mk.inj (Option.some.inj h)
                exact stepOK_any _ (stepOK_trans hv trivial hrest) trivial
    -- evalMapList
    · intro eng s l r s2 h
      cases l with
      | nil =>
        rw [evalMapList] at h
        obtain ⟨rfl, rfl⟩ := Prod.mk.inj (Option.some.inj h)
        exact stepOK_refl ..
      | cons kv rest =>
        obtain ⟨key, e⟩ := kv
        rw [evalMapList] at h
        cases h1 : evalExpr eng n s e with
        | none => rw [h1] at h; exact Option.noConfusion h
        | some p =>
          obtain ⟨r1, s1⟩ := p
          rw [h1] at h
          have hv := ihE eng s e _ _ h1
          cases r1 with
          | error er =>
            simp only at h
            obtain ⟨rfl, rfl⟩ := Prod.mk.inj (Option.some.inj h)
            exact stepOK_err_cast hv
          | ok v =>
            simp only at h
            cases h2 : evalMapList eng n s1 rest with
            | none => rw [h2] at h; exact Option.noConfusion h
            | some p2 =>
              obtain ⟨r2, s22⟩ := p2
              rw [h2] at h
              have hrest := ihML eng s1 rest _ _ h2
              cases r2 with
              | error er =>
                simp only at h
                obtain ⟨rfl, rfl⟩ := Prod.mk.inj (Option.some.inj h)
                exact stepOK_trans hv trivial hrest
              | ok vs =>
                simp only at h
                obtain ⟨rfl, rfl⟩ := Prod.mk.inj (Option.some.inj h)
                exact stepOK_any _ (stepOK_trans hv trivial hrest) trivial
    -- evalInExpr
    · intro eng s a b r s2 h
      rw [evalInExpr] at h
      rcases hgov : eng.incOperations s.st with ⟨st0, o⟩
      rw [hgov] at h
      have hlvl : st0.scopeLevel = s.st.scopeLevel := by
        have := incOps_scopeLevel eng s.st; rw [hgov] at this; exact this
      cases o with
      | some er =>
        simp only at h
        obtain ⟨rfl, rfl⟩ := Prod.mk.inj (Option.some.inj h)
        exact stepOK_st s _ st0 hlvl
      | none =>
        simp only at h
        refine stepOK_trans (stepOK_st s (Except.ok Dyn.unit) st0 hlvl) trivial ?_
        cases h1 : evalExpr eng n { s with st := st0 } a with
        | none => rw [h1] at h; exact Option.noConfusion h
        | some p =>
          obtain ⟨r1, s1⟩ := p
          rw [h1] at h
          have hv := ihE eng _ a _ _ h1
          cases r1 with
          | error er =>
            simp only at h
            obtain ⟨rfl, rfl⟩ := Prod.mk.inj (Option.some.inj h)
            exact hv
          | ok lv =>
            simp only at h
            cases h2 : evalExpr eng n s1 b with
            | none => rw [h2] at h; exact Option.noConfusion h
            | some p2 =>
              obtain ⟨r2, s22⟩ := p2
              rw [h2] at h
              have hv2 := ihE eng s1 b _ _ h2
              cases r2 with
              | error er =>
                simp only at h
                obtain ⟨rfl, rfl⟩ := Prod.mk.inj (Option.some.inj h)
                exact stepOK_trans hv trivial hv2
              | ok rv =>
                simp only at h
                obtain ⟨rfl, rfl⟩ := Prod.mk.inj (Option.some.inj h)
                exact stepOK_any _ (stepOK_trans hv trivial hv2) trivial


end Rhai

namespace Rhai

/-- Helper: a block statement always restores the scope and imports lengths,
whatever the outcome. -/
theorem blockLenAux {eng : Engine} {fuel : Nat} {s : EState} {body : List Stmt}
    {r : Except EvalErr Dyn} {s2 : EState}
    (h : evalStmt eng fuel s (.block body) = some (r, s2)) :
    s2.scope.length = s.scope.length ∧ s2.mods.length = s.mods.length := by
  cases fuel with
  | zero => exact Option.noConfusion h
  | succ n =>
    rw [evalStmt] at h
    rcases hgov : eng.incOperations s.st with ⟨st0, o⟩
    rw [hgov] at h
    cases o with
    | some er =>
      simp only at h
      obtain ⟨rfl, rfl⟩ := Prod.mk.inj (Option.some.inj h)
      exact ⟨rfl, rfl⟩
    | none =>
      simp only at h
      obtain ⟨r0, ho, rfl⟩ := wrapCds_some h
      cases hb : evalStmts eng n
          { s with st := { st0 with scopeLevel := st0.scopeLevel + 1 } }
          body with
      | none => rw [hb] at ho; exact Option.noConfusion ho
      | some p =>
        obtain ⟨rr, sB⟩ := p
        rw [hb] at ho
        simp only at ho
        obtain ⟨rfl, rfl⟩ := Prod.mk.inj (Option.some.inj ho)
        have hfold := ((invAll n).2.1) eng _ body _ _ hb
        have h1 := hfold.1.scopeLen
        have h2 := hfold.1.modsLen
        dsimp only at h1 h2
        constructor
        · dsimp only
          simp only [List.length_take]
          omega
        · dsimp only
          simp only [List.length_take]
          omega

/-- Helper: iterating a for loop whose body is a block never changes the
scope length (each body run restores it, and the loop-variable write is in
place). -/
theorem forIterateBlockLen {eng : Engine} :
    ∀ (fuel : Nat) (s : EState) (idx : Nat) (bs : List Stmt) (vs : List Dyn)
      (r : Except EvalErr Dyn) (s2 : EState),
    forIterate eng fuel s idx (.block bs) vs = some (r, s2) →
    s2.scope.length = s.scope.length ∧ s2.mods.length = s.mods.length := by
  intro fuel
  induction fuel with
  | zero => intro s idx bs vs r s2 h; exact Option.noConfusion h
  | succ n ih =>
    intro s idx bs vs r s2 h
    cases vs with
    | nil =>
      rw [forIterate] at h
      obtain ⟨rfl, rfl⟩ := Prod.mk.inj (Option.some.inj h)
      exact ⟨rfl, rfl⟩
    | cons v rest =>
      rw [forIterate] at h
      simp only at h
      rcases hgov : eng.incOperations s.st with ⟨st2, o⟩
      rw [hgov] at h
      have hwl : (scopeSetVal s.scope idx v).length = s.scope.length :=
        scopeSetVal_length ..
      cases o with
      | some er =>
        simp only at h
        obtain ⟨rfl, rfl⟩ := Prod.mk.inj (Option.some.inj h)
        exact ⟨hwl, rfl⟩
      | none =>
        simp only at h
        cases hb : evalStmt eng n
            { s with scope := scopeSetVal s.scope idx v, st := st2 }
            (.block bs) with
        | none => rw [hb] at h; exact Option.noConfusion h
        | some p =>
          obtain ⟨rb, s3⟩ := p
          rw [hb] at h
          have hbl := blockLenAux hb
          dsimp only at hbl
          cases rb with
          | ok vv =>
            simp only at h
            have := ih s3 idx bs rest _ _ h
            omega
          | error er =>
            simp only at h
            split at h
            · have := ih s3 idx bs rest _ _ h
              omega
            · obtain ⟨rfl, rfl⟩ := Prod.mk.inj (Option.some.inj h)
              omega
            · obtain ⟨rfl, rfl⟩ := Prod.mk.inj (Option.some.inj h)
              omega

end Rhai

namespace Rhai

/-! ## Concrete instances

A small concrete engine and entry context used to exhibit counterexamples
and to instantiate the claim theorems on closed runs: unlimited operations,
no data caps, integer `+` and `==` through the call seam, the standard array
iterator, and integer `+=` through the op-assignment seam. -/

/-- The array iterator factory: iterate the elements in order. -/
def fW : Dyn → List Dyn := fun d => match d with | .array vs => vs | _ => []

/-- A concrete engine configuration for closed evaluations. -/
def engW : Engine where
  maxOperations := 0
  maxModules := 1000
  maxStringSize := 0
  maxArraySize := 0
  maxMapSize := 0
  progress := none
  callFn := fun name args =>
    match name, args with
    | "+", [.int a, .int b] => some (.ok (.int (a + b)))
    | "==", [.int a, .int b] => some (.ok (.bool (a = b)))
    | _, _ => none
  getIter := fun t => if t = 5 then some fW else none
  resolver := none
  opAssign := fun op a b =>
    match op, a, b with
    | "+=", .int x, .int y => some (.ok (.int (x + y)))
    | _, _, _ => none

/-- The empty entry context: no scope slots, no imports, fresh state, no
this-binding. -/
def sW : EState := ⟨[], [], ⟨false, 0, 0, 0⟩, none⟩

/-- The size governor passes a unit value through unchanged (units are not a
capped shape). -/
theorem cds_ok_unit (eng : Engine) :
    eng.checkDataSize (.ok .unit) = .ok .unit := by
  unfold Engine.checkDataSize
  split
  · rfl
  · rfl

/-- C1: the claim says a block restores scope and imports lengths, restores
`scope_level` to its entry value and clears `always_search` on every exit
path including errors propagated from inner statements.  This closed run
refutes the `scope_level` part: a block whose inner for-loop body throws
exits with the error, with scope and imports truncated back and
`always_search` cleared, but with `scope_level = 1` against an entry value
of `0` — the for-loop error path skips its `scope_level` decrement
(engine.rs:1527/1535 never reach the rewind at engine.rs:1540-1541), and the
block only subtracts one level. -/
theorem c1_block_restores_counterexample :
    (evalStmt engW 30 sW (.block [.forS "x" (.arrayC [.intC 1])
        (.block [.throwS none])])).map
      (fun p => ((match p.1 with
          | .error (.errorRuntime m) => some m
          | _ => none),
        p.2.st.scopeLevel, p.2.scope.length, p.2.mods.length)) =
      some (some "", 1, 0, 0) ∧
    sW.st.scopeLevel = 0 ∧ sW.scope.length = 0 ∧ sW.mods.length = 0 :=
  ⟨rfl, rfl, rfl, rfl⟩

/-- C1 (amended): for every block statement whose entry governor tick
passes, every exit truncates the scope and imports stacks back to their
entry lengths and clears `always_search`; `scope_level` never drops below
its entry value, and it is restored exactly whenever the block completes
with a value or with a `break`/`continue` signal — but an error propagated
from an inner statement may leave `scope_level` above its entry value. -/
theorem c1_block_exit_invariants {eng : Engine} {fuel : Nat} {s : EState}
    {body : List Stmt} {r : Except EvalErr Dyn} {s2 : EState}
    (hgov : (eng.incOperations s.st).2 = none)
    (h : evalStmt eng fuel s (.block body) = some (r, s2)) :
    s2.scope.length = s.scope.length ∧ s2.mods.length = s.mods.length ∧
    s2.st.alwaysSearch = false ∧
    s.st.scopeLevel ≤ s2.st.scopeLevel ∧
    (((∃ v, r = .ok v) ∨ (∃ b, r = .error (.loopBreak b))) →
      s2.st.scopeLevel = s.st.scopeLevel) := by
  cases fuel with
  | zero => exact Option.noConfusion h
  | succ n =>
    rw [evalStmt] at h
    rcases hgov2 : eng.incOperations s.st with ⟨st0, o⟩
    rw [hgov2] at hgov
    dsimp only at hgov
    subst hgov
    rw [hgov2] at h
    have hlvl0 : st0.scopeLevel = s.st.scopeLevel := by
      have := incOps_scopeLevel eng s.st; rw [hgov2] at this; exact this
    simp only at h
    obtain ⟨r0, ho, rfl⟩ := wrapCds_some h
    cases hb : evalStmts eng n
        { s with st := { st0 with scopeLevel := st0.scopeLevel + 1 } }
        body with
    | none => rw [hb] at ho; exact Option.noConfusion ho
    | some p =>
      obtain ⟨rr, sB⟩ := p
      rw [hb] at ho
      simp only at ho
      obtain ⟨rfl, rfl⟩ := Prod.mk.inj (Option.some.inj ho)
      have hfold := ((invAll n).2.1) eng _ body _ _ hb
      have h1 := hfold.1.scopeLen
      have h2 := hfold.1.modsLen
      have h3 := hfold.1.lvlGe
      dsimp only at h1 h2 h3
      refine ⟨?_, ?_, rfl, ?_, ?_⟩
      · dsimp only
        simp only [List.length_take]
        omega
      · dsimp only
        simp only [List.length_take]
        omega
      · dsimp only
        omega
      · intro hk
        have hob : okOrBreak (eng.checkDataSize rr) := by
          rcases hk with ⟨v, hv⟩ | ⟨b, hb2⟩
          · rw [hv]; trivial
          · rw [hb2]; trivial
        have hob2 := cds_okOrBreak hob
        have h4 := hfold.2 hob2
        dsimp only at h4 ⊢
        omega

/-- C1 (amended) at a concrete input: a one-statement block run from the
empty context satisfies every amended exit invariant. -/
theorem c1_block_exit_invariants_witness :
    (engW.incOperations sW.st).2 = none ∧
    evalStmt engW 30 sW (.block [.letS "a" (some (.intC 1))]) =
      some (.ok .unit, ⟨[], [], ⟨false, 0, 3, 0⟩, none⟩) ∧
    ((⟨[], [], ⟨false, 0, 3, 0⟩, none⟩ : EState).scope.length =
        sW.scope.length ∧
      (⟨[], [], ⟨false, 0, 3, 0⟩, none⟩ : EState).mods.length =
        sW.mods.length ∧
      (⟨[], [], ⟨false, 0, 3, 0⟩, none⟩ : EState).st.alwaysSearch = false ∧
      sW.st.scopeLevel ≤
        (⟨[], [], ⟨false, 0, 3, 0⟩, none⟩ : EState).st.scopeLevel ∧
      (((∃ v, (Except.ok Dyn.unit : Except EvalErr Dyn) = .ok v) ∨
        (∃ b, (Except.ok Dyn.unit : Except EvalErr Dyn) =
          .error (.loopBreak b))) →
        (⟨[], [], ⟨false, 0, 3, 0⟩, none⟩ : EState).st.scopeLevel =
          sW.st.scopeLevel)) := by
  have hrun : evalStmt engW 30 sW (.block [.letS "a" (some (.intC 1))]) =
      some (.ok .unit, ⟨[], [], ⟨false, 0, 3, 0⟩, none⟩) := rfl
  have hgov : (engW.incOperations sW.st).2 = none := rfl
  exact ⟨hgov, hrun, c1_block_exit_invariants hgov hrun⟩

/-- C2: the claim says that after a for-loop statement over a registered
iterable, `scope.len()` equals its entry value on every termination,
including an error propagating out of the body.  This closed run refutes
it: a for loop whose body throws exits with the error and with
`scope.len() = 1` against an entry length of `0` (and `scope_level` still
elevated) — the error path returns directly (engine.rs:1535) without the
`scope.rewind` / `scope_level -= 1` restoration at engine.rs:1540-1541. -/
theorem c2_for_pops_slot_counterexample :
    (evalStmt engW 30 sW (.forS "x" (.arrayC [.intC 1])
        (.block [.throwS none]))).map
      (fun p => ((match p.1 with
          | .error (.errorRuntime m) => some m
          | _ => none),
        p.2.scope.length, p.2.st.scopeLevel)) =
      some (some "", 1, 1) ∧
    sW.scope.length = 0 ∧ sW.st.scopeLevel = 0 :=
  ⟨rfl, rfl, rfl⟩

/-- C2 (amended): a for-loop statement over a registered iterable pushes
exactly one scope slot for the loop variable on top of the scope left by
evaluating the iterable; if the loop terminates with a value (exhaustion or
`break`) that slot is popped, so the final scope length equals the length
after the iterable's evaluation — but if an error propagates out of the
body or the per-iteration governor, the slot is NOT popped and the final
scope length is one greater. -/
theorem c2_for_scope_slot {eng : Engine} {n : Nat} {s : EState}
    {name : String} {iterE : Expr} {bs : List Stmt} {st0 : State} {itv : Dyn}
    {s1 : EState} {f : Dyn → List Dyn} {r : Except EvalErr Dyn} {s2 : EState}
    (hgov : eng.incOperations s.st = (st0, none))
    (hiter : evalExpr eng n { s with st := st0 } iterE = some (.ok itv, s1))
    (hgi : eng.getIter itv.typeId = some f)
    (h : evalStmt eng (n+1) s (.forS name iterE (.block bs)) = some (r, s2)) :
    ((∃ v, r = .ok v) → s2.scope.length = s1.scope.length) ∧
    ((∃ e, r = .error e) → s2.scope.length = s1.scope.length + 1) := by
  rw [evalStmt] at h
  rw [hgov] at h
  simp only at h
  obtain ⟨r0, ho, rfl⟩ := wrapCds_some h
  rw [hiter] at ho
  simp only at ho
  rw [hgi] at ho
  simp only at ho
  cases hfi : forIterate eng n
      { s1 with
        scope := s1.scope ++ [⟨name, .normal, none, .unit⟩]
        st := { s1.st with scopeLevel := s1.st.scopeLevel + 1 } }
      (({ s1 with
        scope := s1.scope ++ [⟨name, .normal, none, .unit⟩]
        st := { s1.st with scopeLevel := s1.st.scopeLevel + 1 } } :
          EState).scope.length - 1)
      (.block bs) (f itv) with
  | none => rw [hfi] at ho; exact Option.noConfusion ho
  | some p =>
    obtain ⟨rf, s3⟩ := p
    rw [hfi] at ho
    have hlen := forIterateBlockLen n _ _ bs _ _ _ hfi
    have hlen1 : s3.scope.length = s1.scope.length + 1 := by
      have := hlen.1
      simp only [List.length_append, List.length_cons, List.length_nil] at this
      omega
    cases rf with
    | error er =>
      simp only at ho
      obtain ⟨rfl, rfl⟩ := Prod.mk.inj (Option.some.inj ho)
      constructor
      · rintro ⟨v, hv⟩
        rw [cds_error] at hv
        exact Except.noConfusion hv
      · intro _
        exact hlen1
    | ok vv =>
      simp only at ho
      obtain ⟨rfl, rfl⟩ := Prod.mk.inj (Option.some.inj ho)
      constructor
      · intro _
        dsimp only
        simp only [List.length_take]
        omega
      · rintro ⟨e, he⟩
        rw [cds_ok_unit] at he
        exact Except.noConfusion he

/-- C2 (amended) at a concrete input: a two-element for loop with an empty
body, run from the empty context, exhausts normally and pops its loop
slot. -/
theorem c2_for_scope_slot_witness :
    evalStmt engW 30 sW (.forS "x" (.arrayC [.intC 1, .intC 2])
        (.block [])) =
      some (.ok .unit, ⟨[], [], ⟨false, 0, 8, 0⟩, none⟩) ∧
    (⟨[], [], ⟨false, 0, 8, 0⟩, none⟩ : EState).scope.length =
      (⟨[], [], ⟨false, 0, 4, 0⟩, none⟩ : EState).scope.length := by
  have hrun : evalStmt engW 30 sW (.forS "x" (.arrayC [.intC 1, .intC 2])
      (.block [])) =
      some (.ok .unit, ⟨[], [], ⟨false, 0, 8, 0⟩, none⟩) := rfl
  have hgov : engW.incOperations sW.st = (⟨false, 0, 1, 0⟩, none) := rfl
  have hiter : evalExpr engW 29 { sW with st := ⟨false, 0, 1, 0⟩ }
      (.arrayC [.intC 1, .intC 2]) =
      some (.ok (.array [.int 1, .int 2]),
        ⟨[], [], ⟨false, 0, 4, 0⟩, none⟩) := rfl
  have hgi : engW.getIter (Dyn.array [.int 1, .int 2]).typeId = some fW := rfl
  have hc := c2_for_scope_slot hgov hiter hgi hrun
  exact ⟨hrun, hc.1 ⟨.unit, rfl⟩⟩

end Rhai

namespace Rhai

/-- An engine with an operation budget of 2, for exercising the operation
governor. -/
def engT3 : Engine := { engW with maxOperations := 2 }

/-- C3: every call to `inc_operations` increments `state.operations` by
exactly one (the incremented state is returned even on failure, so at the
failure point `state.operations > max_operations`); it returns
`TooManyOperations` exactly when `max_operations > 0` and the incremented
count exceeds it — in particular never when `max_operations = 0`; and when
the count check passes, the optional progress callback is polled with the
current count, a `false` return yielding `Terminated` and otherwise no
error. -/
theorem c3_inc_operations (eng : Engine) (st : State) :
    (eng.incOperations st).1 = { st with operations := st.operations + 1 } ∧
    ((eng.incOperations st).2 = some .tooManyOperations ↔
      0 < eng.maxOperations ∧ eng.maxOperations < st.operations + 1) ∧
    (eng.maxOperations = 0 →
      (eng.incOperations st).2 ≠ some .tooManyOperations) ∧
    (¬(0 < eng.maxOperations ∧ eng.maxOperations < st.operations + 1) →
      match eng.progress with
      | some p =>
        (eng.incOperations st).2 =
          if p (st.operations + 1) then none else some .terminated
      | none => (eng.incOperations st).2 = none) := by
  unfold Engine.incOperations
  dsimp only
  by_cases hc : 0 < eng.maxOperations ∧ eng.maxOperations < st.operations + 1
  · rw [if_pos hc]
    refine ⟨rfl, ?_, ?_, ?_⟩
    · simp only [iff_true_intro hc, iff_true]
    · intro h0
      exact absurd hc.1 (by omega)
    · intro hnc
      exact absurd hc hnc
  · rw [if_neg hc]
    cases hp : eng.progress with
    | none =>
      refine ⟨rfl, ?_, ?_, ?_⟩
      · simp only [iff_false_intro hc, iff_false]
        simp
      · intro _
        simp
      · intro _
        rfl
    | some p =>
      dsimp only
      by_cases hb : p (st.operations + 1)
      · rw [if_pos hb]
        refine ⟨rfl, ?_, ?_, ?_⟩
        · simp only [iff_false_intro hc, iff_false]
          simp
        · intro _
          simp
        · intro _
          rw [if_pos hb]
      · rw [if_neg hb]
        refine ⟨rfl, ?_, ?_, ?_⟩
        · simp only [iff_false_intro hc, iff_false]
          simp
        · intro _
          simp
        · intro _
          rw [if_neg hb]

/-- C3 at a concrete input: with a budget of 2 and a count of 2, the
governor fails `TooManyOperations` with the count already incremented to 3,
which exceeds the budget. -/
theorem c3_inc_operations_witness :
    (engT3.incOperations ⟨false, 0, 2, 0⟩).2 = some .tooManyOperations ∧
    (engT3.incOperations ⟨false, 0, 2, 0⟩).1.operations = 3 ∧
    engT3.maxOperations < 3 := by
  have hc := c3_inc_operations engT3 ⟨false, 0, 2, 0⟩
  refine ⟨hc.2.1.mpr ⟨by decide, by decide⟩, ?_, by decide⟩
  rw [hc.1]

/-- C10: a `throw v` statement evaluates `v` and raises `ErrorRuntime`
whose message is `v` itself when `v` is a string, and the empty string for
every non-string `v` (the thrown value is discarded, not converted). -/
theorem c10_throw_message {eng : Engine} {n : Nat} {s : EState} {e : Expr}
    {st0 : State} {v : Dyn} {s1 : EState}
    (hgov : eng.incOperations s.st = (st0, none))
    (hev : evalExpr eng n { s with st := st0 } e = some (.ok v, s1)) :
    evalStmt eng (n+1) s (.throwS (some e)) =
      some (.error (.errorRuntime
        (match v with | .str m => m | _ => "")), s1) := by
  rw [evalStmt, hgov]
  simp only
  cases v <;>
    (simp only [hev]
     simp only [wrapCds]
     rw [cds_error]
     exact rfl)

/-- C10 at concrete inputs: `throw 42` raises `ErrorRuntime ""`, and
`throw "boom"` raises `ErrorRuntime "boom"`. -/
theorem c10_throw_message_witness :
    evalStmt engW 30 sW (.throwS (some (.intC 42))) =
      some (.error (.errorRuntime ""), ⟨[], [], ⟨false, 0, 2, 0⟩, none⟩) ∧
    evalStmt engW 30 sW (.throwS (some (.strC "boom"))) =
      some (.error (.errorRuntime "boom"),
        ⟨[], [], ⟨false, 0, 2, 0⟩, none⟩) := by
  have hgov : engW.incOperations sW.st = (⟨false, 0, 1, 0⟩, none) := rfl
  have hev1 : evalExpr engW 29 { sW with st := ⟨false, 0, 1, 0⟩ }
      (.intC 42) = some (.ok (.int 42), ⟨[], [], ⟨false, 0, 2, 0⟩, none⟩) :=
    rfl
  have hev2 : evalExpr engW 29 { sW with st := ⟨false, 0, 1, 0⟩ }
      (.strC "boom") =
      some (.ok (.str "boom"), ⟨[], [], ⟨false, 0, 2, 0⟩, none⟩) := rfl
  exact ⟨c10_throw_message hgov hev1, c10_throw_message hgov hev2⟩

end Rhai

namespace Rhai

/-- An engine whose `==` always returns the non-boolean value 7 through the
call seam. -/
def engNB : Engine :=
  { engW with callFn := fun name args =>
      match name, args with
      | "==", [_, _] => some (.ok (.int 7))
      | _, _ => none }

/-- An engine with no functions registered at all. -/
def engNone : Engine := { engW with callFn := fun _ _ => none }

/-- C5: writing through a string-character target with a valid index
replaces exactly the character at that index, rebuilding the string if and
only if the new character differs from the old one (the returned flag
records the rebuild; an equal character leaves the string untouched);
writing a non-char value is `CharMismatch`; producing the target from a
negative or past-the-end index is `StringBounds`, while a valid index
produces the string-char target of the character at that index. -/
theorem c5_string_char_write :
    (∀ (sc : List Char) (idx : Nat) (ch : Dyn) (c : Char)
        (h : idx < sc.length),
      Tgt.setValue (.stringChar sc idx ch) (.char c) =
        (if sc.get ⟨idx, h⟩ = c then .ok (.stringChar sc idx ch, false)
         else .ok (.stringChar (sc.set idx c) idx ch, true))) ∧
    (∀ (sc : List Char) (idx : Nat) (ch : Dyn) (nv : Dyn),
      (∀ c, nv ≠ .char c) →
      Tgt.setValue (.stringChar sc idx ch) nv = .error .charMismatch) ∧
    (∀ (eng : Engine) (st : State) (sv : String) (i : Int) (create : Bool),
      (eng.incOperations st).2 = none →
      ((i < 0 ∨ (sv.toList.length : Int) ≤ i →
        eng.getIndexedMut st (.str sv) (.int i) create =
          ((eng.incOperations st).1, .error (.stringBounds sv.length i))) ∧
      (∀ ch, 0 ≤ i → sv.toList[i.toNat]? = some ch →
        eng.getIndexedMut st (.str sv) (.int i) create =
          ((eng.incOperations st).1, .ok (.strChar i.toNat ch, .str sv))))) := by
  refine ⟨?_, ?_, ?_⟩
  · intro sc idx ch c h
    unfold Tgt.setValue
    simp only [Dyn.asChar]
    have hgd : sc.getD idx default = sc[idx] :=
      List.getD_eq_getElem sc default h
    rw [hgd]
    simp only [List.get_eq_getElem]
    by_cases hc : sc[idx] = c
    · rw [if_neg (by simp [hc]), if_pos hc]
    · rw [if_pos hc, if_neg hc]
  · intro sc idx ch nv hnv
    cases nv <;> first
      | (exact absurd rfl (hnv _))
      | rfl
  · intro eng st sv i create hg
    rcases hgi : eng.incOperations st with ⟨st1, o⟩
    rw [hgi] at hg
    dsimp only at hg
    subst hg
    constructor
    · intro hoob
      unfold Engine.getIndexedMut
      rw [hgi]
      simp only [Dyn.asInt]
      rcases hoob with hneg | hge
      · rw [if_neg (by omega)]
      · have hnone : sv.toList[i.toNat]? = none :=
          List.getElem?_eq_none (by omega)
        rw [if_pos (by omega), hnone]
    · intro ch hge hsome
      unfold Engine.getIndexedMut
      rw [hgi]
      simp only [Dyn.asInt]
      rw [if_pos hge, hsome]

/-- C5 at concrete inputs: on the characters of "abc", writing 'Z' at index
1 rebuilds exactly that character, writing the equal character 'b' leaves
the list untouched with the rebuild flag off, writing the non-char value 7
is `CharMismatch`, reading index 5 of "abc" is `StringBounds`, and reading
index 1 produces the string-char target of 'b'. -/
theorem c5_string_char_write_witness :
    Tgt.setValue (.stringChar ['a', 'b', 'c'] 1 (.char 'b')) (.char 'Z') =
      .ok (.stringChar ['a', 'Z', 'c'] 1 (.char 'b'), true) ∧
    Tgt.setValue (.stringChar ['a', 'b', 'c'] 1 (.char 'b')) (.char 'b') =
      .ok (.stringChar ['a', 'b', 'c'] 1 (.char 'b'), false) ∧
    Tgt.setValue (.stringChar ['a', 'b', 'c'] 1 (.char 'b')) (.int 7) =
      .error .charMismatch ∧
    engW.getIndexedMut ⟨false, 0, 0, 0⟩ (.str "abc") (.int 5) false =
      (⟨false, 0, 1, 0⟩, .error (.stringBounds 3 5)) ∧
    engW.getIndexedMut ⟨false, 0, 0, 0⟩ (.str "abc") (.int 1) false =
      (⟨false, 0, 1, 0⟩, .ok (.strChar 1 'b', .str "abc")) := by
  have hc := c5_string_char_write
  have h1 := hc.1 ['a', 'b', 'c'] 1 (.char 'b') 'Z' (by decide)
  have h2 := hc.1 ['a', 'b', 'c'] 1 (.char 'b') 'b' (by decide)
  have h3 := hc.2.1 ['a', 'b', 'c'] 1 (.char 'b') (.int 7)
    (fun c hcc => Dyn.noConfusion hcc)
  have h45 := hc.2.2 engW ⟨false, 0, 0, 0⟩ "abc" 5 false rfl
  have h67 := hc.2.2 engW ⟨false, 0, 0, 0⟩ "abc" 1 false rfl
  refine ⟨h1.trans rfl, h2.trans rfl, h3, ?_, ?_⟩
  · exact (h45.1 (Or.inr (by decide))).trans rfl
  · exact (h67.2 'b' (by decide) rfl).trans rfl

/-- C9: in an array `in` scan, an element whose dispatched `==` call
returns a non-boolean value is treated as not matching and the scan simply
continues; when the call seam has no `==` at all, the supplied `false`
default is used and the scan likewise continues; and whenever every
element's `==` call succeeds, the scan itself never fails — a non-boolean
`==` result never raises an error. -/
theorem c9_in_nonbool_eq :
    (∀ eng lv v rest r,
      callFnRaw eng "==" [lv, v] (some (.bool false)) = .ok r →
      (∀ b, r ≠ .bool b) →
      inArrayScan eng lv (v :: rest) = inArrayScan eng lv rest) ∧
    (∀ eng lv v rest,
      eng.callFn "==" [lv, v] = none →
      inArrayScan eng lv (v :: rest) = inArrayScan eng lv rest) ∧
    (∀ eng lv vs,
      (∀ u ∈ vs,
        ∃ r, callFnRaw eng "==" [lv, u] (some (.bool false)) = .ok r) →
      ∃ b, inArrayScan eng lv vs = .ok b) := by
  refine ⟨?_, ?_, ?_⟩
  · intro eng lv v rest r hr hnb
    have hab : r.asBool = .error () := by
      cases r <;> first
        | (exact absurd rfl (hnb _))
        | rfl
    simp only [inArrayScan]
    rw [hr]
    simp only [hab]
    rfl
  · intro eng lv v rest hnone
    have hr : callFnRaw eng "==" [lv, v] (some (.bool false)) =
        .ok (.bool false) := by
      unfold callFnRaw
      rw [hnone]
    simp only [inArrayScan]
    rw [hr]
    simp only [Dyn.asBool]
    rfl
  · intro eng lv vs
    induction vs with
    | nil => exact fun _ => ⟨false, rfl⟩
    | cons v rest ih =>
      intro hall
      obtain ⟨r, hr⟩ := hall v (List.mem_cons_self v rest)
      simp only [inArrayScan]
      rw [hr]
      dsimp only
      cases hbf : (match r.asBool with
        | .ok b => b
        | .error _ => false) with
      | true => exact ⟨true, rfl⟩
      | false => exact ih (fun u hu => hall u (List.mem_cons_of_mem v hu))

/-- C9 at a concrete input: with an engine whose `==` always returns the
integer 7, the scan skips the probed element, and with no `==` registered
at all the scan also skips; both scans end with `false` and no error. -/
theorem c9_in_nonbool_eq_witness :
    inArrayScan engNB (.int 1) [.int 2] = inArrayScan engNB (.int 1) [] ∧
    inArrayScan engNB (.int 1) [] = .ok false ∧
    inArrayScan engNone (.int 1) [.int 2] =
      inArrayScan engNone (.int 1) [] := by
  refine ⟨?_, rfl, ?_⟩
  · exact (c9_in_nonbool_eq).1 engNB (.int 1) (.int 2) [] (.int 7) rfl
      (fun b h => Dyn.noConfusion h)
  · exact (c9_in_nonbool_eq).2.1 engNone (.int 1) (.int 2) [] rfl

end Rhai

namespace Rhai

/-- Helper: the array `in` scan answers true when the elements before
position `j` all compare non-true and the element at `j` compares true. -/
theorem inArrayScan_found (eng : Engine) (lv : Dyn) :
    ∀ (vs : List Dyn) (j : Nat) (w : Dyn), vs[j]? = some w →
    (∀ u ∈ vs.take j,
      ∃ r, callFnRaw eng "==" [lv, u] (some (.bool false)) = .ok r ∧
        (match r.asBool with | .ok b => b | .error _ => false) = false) →
    (∃ r, callFnRaw eng "==" [lv, w] (some (.bool false)) = .ok r ∧
      (match r.asBool with | .ok b => b | .error _ => false) = true) →
    inArrayScan eng lv vs = .ok true := by
  intro vs
  induction vs with
  | nil =>
    intro j w hj
    simp at hj
  | cons v rest ih =>
    intro j w hj hpre hw
    cases j with
    | zero =>
      simp only [List.getElem?_cons_zero] at hj
      obtain rfl := Option.some.inj hj
      obtain ⟨r, hr, hb⟩ := hw
      simp only [inArrayScan]
      rw [hr]
      dsimp only
      rw [hb]
      rfl
    | succ j2 =>
      have hv : v ∈ (v :: rest).take (j2 + 1) := by
        rw [List.take_succ_cons]
        exact List.mem_cons_self v _
      obtain ⟨r, hr, hb⟩ := hpre v hv
      simp only [inArrayScan]
      rw [hr]
      dsimp only
      rw [hb]
      simp only [Bool.false_eq_true, if_false]
      refine ih j2 w (by simpa using hj) ?_ hw
      intro u hu
      refine hpre u ?_
      rw [List.take_succ_cons]
      exact List.mem_cons_of_mem v hu

/-- Helper: the array `in` scan answers false when every element compares
non-true. -/
theorem inArrayScan_notFound (eng : Engine) (lv : Dyn) :
    ∀ vs : List Dyn,
    (∀ u ∈ vs,
      ∃ r, callFnRaw eng "==" [lv, u] (some (.bool false)) = .ok r ∧
        (match r.asBool with | .ok b => b | .error _ => false) = false) →
    inArrayScan eng lv vs = .ok false := by
  intro vs
  induction vs with
  | nil => intro _; rfl
  | cons v rest ih =>
    intro hall
    obtain ⟨r, hr, hb⟩ := hall v (List.mem_cons_self v rest)
    simp only [inArrayScan]
    rw [hr]
    dsimp only
    rw [hb]
    simp only [Bool.false_eq_true, if_false]
    exact ih (fun u hu => hall u (List.mem_cons_of_mem v hu))

/-- C6: the `in` expression evaluates its operands left to right and applies
the value-level membership semantics; with an array RHS the elements are
probed in natural order through the dispatched `==` call, answering true
when a first match exists and false when no element matches; with a map RHS
a string LHS tests key membership and a char LHS tests its single-character
key, any other LHS failing `InExpr`; with a string RHS a string LHS tests
substring containment and a char LHS character containment, any other LHS
failing `InExpr`; and any other RHS fails `InExpr`. -/
theorem c6_in_expr :
    (∀ (eng : Engine) (n : Nat) (s : EState) (lhs rhs : Expr) (st0 : State)
        (lv : Dyn) (s1 : EState) (rv : Dyn) (s2 : EState),
      eng.incOperations s.st = (st0, none) →
      evalExpr eng n { s with st := st0 } lhs = some (.ok lv, s1) →
      evalExpr eng n s1 rhs = some (.ok rv, s2) →
      evalInExpr eng (n+1) s lhs rhs = some (inOp eng lv rv, s2)) ∧
    (∀ eng lv vs j w, vs[j]? = some w →
      (∀ u ∈ vs.take j,
        ∃ r, callFnRaw eng "==" [lv, u] (some (.bool false)) = .ok r ∧
          (match r.asBool with | .ok b => b | .error _ => false) = false) →
      (∃ r, callFnRaw eng "==" [lv, w] (some (.bool false)) = .ok r ∧
        (match r.asBool with | .ok b => b | .error _ => false) = true) →
      inOp eng lv (.array vs) = .ok (.bool true)) ∧
    (∀ eng lv vs,
      (∀ u ∈ vs,
        ∃ r, callFnRaw eng "==" [lv, u] (some (.bool false)) = .ok r ∧
          (match r.asBool with | .ok b => b | .error _ => false) = false) →
      inOp eng lv (.array vs) = .ok (.bool false)) ∧
    (∀ eng m sv, inOp eng (.str sv) (.map m) =
      .ok (.bool (m.any (fun kv => kv.1 = sv)))) ∧
    (∀ eng m c, inOp eng (.char c) (.map m) =
      .ok (.bool (m.any (fun kv => kv.1 = c.toString)))) ∧
    (∀ eng m lv, (∀ sv, lv ≠ .str sv) → (∀ c, lv ≠ .char c) →
      inOp eng lv (.map m) = .error .inExpr) ∧
    (∀ eng rs sv, inOp eng (.str sv) (.str rs) =
      .ok (.bool (strContainsStr rs.toList sv.toList))) ∧
    (∀ eng rs c, inOp eng (.char c) (.str rs) =
      .ok (.bool (rs.toList.contains c))) ∧
    (∀ eng rs lv, (∀ sv, lv ≠ .str sv) → (∀ c, lv ≠ .char c) →
      inOp eng lv (.str rs) = .error .inExpr) ∧
    (∀ eng lv rv, (∀ vs, rv ≠ .array vs) → (∀ m, rv ≠ .map m) →
      (∀ sv, rv ≠ .str sv) → inOp eng lv rv = .error .inExpr) := by
  refine ⟨?_, ?_, ?_, fun _ _ _ => rfl, fun _ _ _ => rfl, ?_,
    fun _ _ _ => rfl, fun _ _ _ => rfl, ?_, ?_⟩
  · intro eng n s lhs rhs st0 lv s1 rv s2 hgov hl hr
    rw [evalInExpr, hgov]
    simp only
    rw [hl]
    simp only
    rw [hr]
  · intro eng lv vs j w hj hpre hw
    rw [inOp, inArrayScan_found eng lv vs j w hj hpre hw]
  · intro eng lv vs hall
    rw [inOp, inArrayScan_notFound eng lv vs hall]
  · intro eng m lv hs hch
    cases lv <;> first
      | (exact absurd rfl (hs _))
      | (exact absurd rfl (hch _))
      | rfl
  · intro eng rs lv hs hch
    cases lv <;> first
      | (exact absurd rfl (hs _))
      | (exact absurd rfl (hch _))
      | rfl
  · intro eng lv rv ha hm hs
    cases rv <;> first
      | (exact absurd rfl (ha _))
      | (exact absurd rfl (hm _))
      | (exact absurd rfl (hs _))
      | rfl

/-- C6 at concrete inputs: `2 in [1,2,3]` evaluates to true through the
evaluator, the matching element being found after the non-matching first
element; `4 in [1,2,3]` is false; and `1 in #{}` fails `InExpr` because the
LHS is neither a string nor a char. -/
theorem c6_in_expr_witness :
    evalInExpr engW 30 sW (.intC 2) (.arrayC [.intC 1, .intC 2, .intC 3]) =
      some (.ok (.bool true), ⟨[], [], ⟨false, 0, 6, 0⟩, none⟩) ∧
    inOp engW (.int 2) (.array [.int 1, .int 2, .int 3]) =
      .ok (.bool true) ∧
    inOp engW (.int 4) (.array [.int 1, .int 2, .int 3]) =
      .ok (.bool false) ∧
    inOp engW (.int 1) (.map []) = .error .inExpr := by
  have hc := c6_in_expr
  have hlink := hc.1 engW 29 sW (.intC 2) (.arrayC [.intC 1, .intC 2, .intC 3])
    ⟨false, 0, 1, 0⟩ (.int 2) ⟨[], [], ⟨false, 0, 2, 0⟩, none⟩
    (.array [.int 1, .int 2, .int 3]) ⟨[], [], ⟨false, 0, 6, 0⟩, none⟩
    rfl rfl rfl
  refine ⟨hlink.trans rfl, ?_, ?_, ?_⟩
  · refine hc.2.1 engW (.int 2) [.int 1, .int 2, .int 3] 1 (.int 2) rfl ?_
      ⟨.bool true, rfl, rfl⟩
    intro u hu
    simp only [List.take_succ_cons, List.take_zero, List.mem_singleton] at hu
    subst hu
    exact ⟨.bool false, rfl, rfl⟩
  · refine hc.2.2.1 engW (.int 4) [.int 1, .int 2, .int 3] ?_
    intro u hu
    simp only [List.mem_cons, List.not_mem_nil, or_false] at hu
    rcases hu with rfl | rfl | rfl
    · exact ⟨.bool false, rfl, rfl⟩
    · exact ⟨.bool false, rfl, rfl⟩
    · exact ⟨.bool false, rfl, rfl⟩
  · exact hc.2.2.2.2.2.1 engW [] (.int 1)
      (fun sv h => Dyn.noConfusion h) (fun c h => Dyn.noConfusion h)

end Rhai

namespace Rhai

/-- Helper: what a successful `findIdx?` means — the found index holds an
element satisfying the predicate, and every earlier index does not. -/
theorem findIdx?_spec {α : Type} (p : α → Bool) :
    ∀ (l : List α) (j : Nat), l.findIdx? p = some j →
      ∃ a, l[j]? = some a ∧ p a = true ∧
        ∀ j2, j2 < j → ∀ b, l[j2]? = some b → p b = false := by
  intro l
  induction l with
  | nil =>
    intro j h
    simp at h
  | cons x xs ih =>
    intro j h
    rw [List.findIdx?_cons] at h
    by_cases hp : p x
    · rw [if_pos hp] at h
      obtain rfl := Option.some.inj h
      exact ⟨x, by simp, hp, fun j2 hj2 => absurd hj2 (by omega)⟩
    · rw [if_neg hp] at h
      rw [List.findIdx?_succ] at h
      cases hfx : xs.findIdx? p with
      | none =>
        rw [hfx] at h
        exact Option.noConfusion h
      | some j2 =>
        rw [hfx] at h
        simp only [Option.map_some'] at h
        obtain rfl := Option.some.inj h
        obtain ⟨a, ha, hpa, hmin⟩ := ih j2 hfx
        refine ⟨a, by simpa using ha, hpa, ?_⟩
        intro j3 hj3 b hb
        cases j3 with
        | zero =>
          simp only [List.getElem?_cons_zero] at hb
          obtain rfl := Option.some.inj hb
          simpa using hp
        | succ j4 =>
          exact hmin j4 (by omega) b (by simpa using hb)

/-- Helper: what the modelled `Scope::get_index` returns — the most recent
slot carrying the name: the returned index holds a slot with that name and
every later index does not; and it returns `none` exactly when no slot
carries the name. -/
theorem scopeGetIndex_spec (sc : List ScopeEntry) (name : String) :
    (∀ i, scopeGetIndex sc name = some i →
      ∃ e, sc[i]? = some e ∧ e.name = name ∧
        ∀ j e2, i < j → sc[j]? = some e2 → e2.name ≠ name) ∧
    (scopeGetIndex sc name = none ↔ ∀ e ∈ sc, e.name ≠ name) := by
  constructor
  · intro i h
    unfold scopeGetIndex at h
    cases hf : sc.reverse.findIdx? (fun e => e.name = name) with
    | none =>
      rw [hf] at h
      exact Option.noConfusion h
    | some j =>
      rw [hf] at h
      dsimp only at h
      obtain rfl := Option.some.inj h
      obtain ⟨a, ha, hpa, hmin⟩ := findIdx?_spec _ sc.reverse j hf
      have hjlen : j < sc.length := by
        have := getElem?_some_lt ha
        simpa using this
      have hrev := List.getElem?_reverse (show j < sc.length from hjlen)
      rw [hrev] at ha
      refine ⟨a, ha, by simpa using hpa, ?_⟩
      intro j2 e2 hi2 he2
      have hj2len : j2 < sc.length := getElem?_some_lt he2
      have hrev2 : sc.reverse[sc.length - 1 - j2]? = sc[j2]? := by
        have h3 := List.getElem?_reverse
          (show sc.length - 1 - j2 < sc.length from by omega)
        rw [h3]
        congr 1
        omega
      have hlt : sc.length - 1 - j2 < j := by omega
      have := hmin (sc.length - 1 - j2) hlt e2 (by rw [hrev2]; exact he2)
      simpa using this
  · unfold scopeGetIndex
    cases hf : sc.reverse.findIdx? (fun e => e.name = name) with
    | none =>
      dsimp only
      rw [List.findIdx?_eq_none_iff] at hf
      constructor
      · intro _ e he
        have := hf e (by simpa using he)
        simpa using this
      · intro _
        rfl
    | some j =>
      dsimp only
      obtain ⟨a, ha, hpa, _⟩ := findIdx?_spec _ sc.reverse j hf
      constructor
      · intro h
        exact Option.noConfusion h
      · intro hall
        exfalso
        have hmem : a ∈ sc := by
          have h2 : a ∈ sc.reverse := List.getElem?_mem ha
          simpa using h2
        exact hall a hmem (by simpa using hpa)

/-- C7: scope lookup for a variable expression: the name `this` resolves to
the this-binding, or fails `UnboundedThis` when there is none; otherwise,
when `always_search` is off and the expression carries a cached offset `k`,
the returned slot is `scope[scope.len() - k]` with no name comparison; and
otherwise (`always_search` on, or no cached offset) the scope is searched
linearly from the top for the most recent slot carrying the name, failing
`VariableNotFound` when no slot carries it. -/
theorem c7_scope_lookup :
    (∀ (sc : List ScopeEntry) (st : State) (tp : Option Dyn)
        (k : Option Nat) (v : Dyn), tp = some v →
      searchScopeOnly sc st tp "this" k = .ok (.thisF v)) ∧
    (∀ (sc : List ScopeEntry) (st : State) (k : Option Nat),
      searchScopeOnly sc st none "this" k = .error .unboundedThis) ∧
    (∀ (sc : List ScopeEntry) (st : State) (tp : Option Dyn) (name : String)
        (k : Nat) (e : ScopeEntry), name ≠ "this" →
      st.alwaysSearch = false →
      sc[sc.length - k]? = some e →
      searchScopeOnly sc st tp name (some k) =
        .ok (.slot (sc.length - k) e)) ∧
    (∀ (sc : List ScopeEntry) (st : State) (tp : Option Dyn) (name : String)
        (k : Option Nat) (i : Nat), name ≠ "this" →
      (st.alwaysSearch = true ∨ k = none) →
      scopeGetIndex sc name = some i →
      ∃ e, sc[i]? = some e ∧ e.name = name ∧
        (∀ j e2, i < j → sc[j]? = some e2 → e2.name ≠ name) ∧
        searchScopeOnly sc st tp name k = .ok (.slot i e)) ∧
    (∀ (sc : List ScopeEntry) (st : State) (tp : Option Dyn) (name : String)
        (k : Option Nat), name ≠ "this" →
      (st.alwaysSearch = true ∨ k = none) →
      (∀ e ∈ sc, e.name ≠ name) →
      searchScopeOnly sc st tp name k = .error (.variableNotFound name)) := by
  refine ⟨?_, ?_, ?_, ?_, ?_⟩
  · intro sc st tp k v htp
    unfold searchScopeOnly
    rw [if_pos rfl, htp]
  · intro sc st k
    unfold searchScopeOnly
    rw [if_pos rfl]
  · intro sc st tp name k e hname has hsl
    unfold searchScopeOnly
    rw [if_neg hname, has]
    simp only [Bool.false_eq_true, if_false]
    rw [hsl]
  · intro sc st tp name k i hname hcase hfind
    obtain ⟨e, he, hen, hmost⟩ := (scopeGetIndex_spec sc name).1 i hfind
    refine ⟨e, he, hen, hmost, ?_⟩
    unfold searchScopeOnly
    rw [if_neg hname]
    have hnone : (if st.alwaysSearch then none else k) = (none : Option Nat) := by
      rcases hcase with h1 | h1
      · rw [h1]
        simp
      · rw [h1]
        simp
    rw [hnone]
    simp only
    rw [hfind]
    dsimp only
    rw [he]
  · intro sc st tp name k hname hcase hmiss
    unfold searchScopeOnly
    rw [if_neg hname]
    have hnone : (if st.alwaysSearch then none else k) = (none : Option Nat) := by
      rcases hcase with h1 | h1
      · rw [h1]
        simp
      · rw [h1]
        simp
    rw [hnone]
    simp only
    rw [(scopeGetIndex_spec sc name).2.mpr hmiss]

/-- A concrete scope with a shadowed name, for exercising scope lookup. -/
def scW : List ScopeEntry :=
  [⟨"x", .normal, none, .int 1⟩, ⟨"y", .normal, none, .int 2⟩,
   ⟨"x", .normal, none, .int 3⟩]

/-- C7 at concrete inputs: `this` resolves to the this-binding and fails
`UnboundedThis` without one; a cached offset of 1 lands on the top slot
even under a name that matches no slot; a linear search for the shadowed
name `x` finds the most recent slot (index 2, value 3); and a search for an
absent name fails `VariableNotFound`. -/
theorem c7_scope_lookup_witness :
    searchScopeOnly scW ⟨false, 0, 0, 0⟩ (some (.int 9)) "this" none =
      .ok (.thisF (.int 9)) ∧
    searchScopeOnly scW ⟨false, 0, 0, 0⟩ none "this" none =
      .error .unboundedThis ∧
    searchScopeOnly scW ⟨false, 0, 0, 0⟩ none "zzz" (some 1) =
      .ok (.slot 2 ⟨"x", .normal, none, .int 3⟩) ∧
    (∃ e, scW[2]? = some e ∧ e.name = "x" ∧
      (∀ j e2, 2 < j → scW[j]? = some e2 → e2.name ≠ "x") ∧
      searchScopeOnly scW ⟨false, 0, 0, 0⟩ none "x" none =
        .ok (.slot 2 e)) ∧
    searchScopeOnly scW ⟨false, 0, 0, 0⟩ none "zzz" none =
      .error (.variableNotFound "zzz") := by
  have hc := c7_scope_lookup
  refine ⟨hc.1 scW ⟨false, 0, 0, 0⟩ (some (.int 9)) none (.int 9) rfl,
    hc.2.1 scW ⟨false, 0, 0, 0⟩ none,
    hc.2.2.1 scW ⟨false, 0, 0, 0⟩ none "zzz" 1 ⟨"x", .normal, none, .int 3⟩
      (by decide) rfl rfl,
    hc.2.2.2.1 scW ⟨false, 0, 0, 0⟩ none "x" none 2 (by decide)
      (Or.inr rfl) rfl,
    hc.2.2.2.2 scW ⟨false, 0, 0, 0⟩ none "zzz" none (by decide)
      (Or.inr rfl) ?_⟩
  intro e he
  fin_cases he <;> decide

end Rhai

namespace Rhai

/-- Helper: the string-length total of an array value is zero (`calc_size`
only counts string length at the top level of a string value). -/
theorem calcSize_third_arr (vs : List Dyn) :
    (calcSize (.array vs)).2.2 = 0 := by
  cases vs with
  | nil => simp [calcSize]
  | cons v rest => cases v <;> simp [calcSize]

/-- The counterexample engine: an array cap of 4 and no other caps. -/
def engW4 : Engine := { engW with maxArraySize := 4 }

/-- C8: the claim says `DataTooLarge` arises if and only if the result's
own shape has a non-zero cap and its computed size exceeds that cap.  This
closed run refutes the only-if direction: with `max_array_size = 4` and
`max_map_size = 0`, the array literal `[#{"a": 1}]` — whose own (array)
size 0 is within its cap — fails `DataTooLarge("Number of properties in
object map", 0, 1)`: once the value's own shape passes the gate, all three
totals are compared against all three caps without re-checking that each
cap is configured (engine.rs:1776-1796). -/
theorem c8_size_governor_counterexample :
    engW4.checkDataSize (.ok (.array [.map [("a", .int 1)]])) =
      .error (.dataTooLarge "Number of properties in object map" 0 1) ∧
    engW4.maxMapSize = 0 ∧ engW4.maxArraySize = 4 ∧
    (calcSize (.array [.map [("a", .int 1)]])).1 = 0 ∧
    (evalExpr engW4 30 sW (.arrayC [.mapC [("a", .intC 1)]])).map
        (fun p => p.1) =
      some (.error
        (.dataTooLarge "Number of properties in object map" 0 1)) := by
  have hcs : calcSize (.array [.map [("a", .int 1)]]) = (0, 1, 0) := by
    simp [calcSize]
  have hcds : engW4.checkDataSize (.ok (.array [.map [("a", .int 1)]])) =
      .error (.dataTooLarge "Number of properties in object map" 0 1) := by
    unfold Engine.checkDataSize
    rw [if_neg (by decide)]
    dsimp only
    rw [if_pos (by decide), hcs]
    rfl
  have hlink : evalExpr engW4 30 sW (.arrayC [.mapC [("a", .intC 1)]]) =
      some (engW4.checkDataSize (.ok (.array [.map [("a", .int 1)]])),
        ⟨[], [], ⟨false, 0, 3, 0⟩, none⟩) := rfl
  refine ⟨hcds, rfl, rfl, by rw [hcs], ?_⟩
  rw [hlink, hcds]
  rfl

/-- C8 (amended): the size governor passes everything through when no cap
at all is configured; errors always pass through; a value whose own shape's
cap is zero (and any non-collection value) bypasses the calculation; but
once the value's own shape has a non-zero cap, the three recursive totals
are compared in order against the string, array and map caps even when
those other caps are zero — the first exceeded comparison yields
`DataTooLarge` with that category, the configured (possibly zero) limit and
the computed total.  In particular, with `max_array_size = 4` an array of
five elements fails `DataTooLarge("Size of array", 4, 5)`. -/
theorem c8_check_data_size :
    (∀ (eng : Engine) (r : Except EvalErr Dyn),
      eng.maxStringSize + eng.maxArraySize + eng.maxMapSize = 0 →
      eng.checkDataSize r = r) ∧
    (∀ (eng : Engine) (e : EvalErr),
      eng.checkDataSize (.error e) = .error e) ∧
    (∀ (eng : Engine) (sv : String), eng.maxStringSize = 0 →
      eng.checkDataSize (.ok (.str sv)) = .ok (.str sv)) ∧
    (∀ (eng : Engine) (vs : List Dyn), eng.maxArraySize = 0 →
      eng.checkDataSize (.ok (.array vs)) = .ok (.array vs)) ∧
    (∀ (eng : Engine) (m : List (String × Dyn)), eng.maxMapSize = 0 →
      eng.checkDataSize (.ok (.map m)) = .ok (.map m)) ∧
    (∀ (eng : Engine) (v : Dyn), (∀ sv, v ≠ .str sv) →
      (∀ a, v ≠ .array a) → (∀ m, v ≠ .map m) →
      eng.checkDataSize (.ok v) = .ok v) ∧
    (∀ (eng : Engine) (vs : List Dyn), 0 < eng.maxArraySize →
      (calcSize (.array vs)).1 ≤ eng.maxArraySize →
      (calcSize (.array vs)).2.1 ≤ eng.maxMapSize →
      eng.checkDataSize (.ok (.array vs)) = .ok (.array vs)) ∧
    (∀ (eng : Engine) (vs : List Dyn), 0 < eng.maxArraySize →
      eng.maxArraySize < (calcSize (.array vs)).1 →
      eng.checkDataSize (.ok (.array vs)) =
        .error (.dataTooLarge "Size of array" eng.maxArraySize
          (calcSize (.array vs)).1)) ∧
    (∀ (eng : Engine) (vs : List Dyn), 0 < eng.maxArraySize →
      (calcSize (.array vs)).1 ≤ eng.maxArraySize →
      eng.maxMapSize < (calcSize (.array vs)).2.1 →
      eng.checkDataSize (.ok (.array vs)) =
        .error (.dataTooLarge "Number of properties in object map"
          eng.maxMapSize (calcSize (.array vs)).2.1)) ∧
    (∀ (eng : Engine) (sv : String), 0 < eng.maxStringSize →
      eng.maxStringSize < sv.length →
      eng.checkDataSize (.ok (.str sv)) =
        .error (.dataTooLarge "Length of string" eng.maxStringSize
          sv.length)) := by
  refine ⟨?_, fun eng e => cds_error eng e, ?_, ?_, ?_, ?_, ?_, ?_, ?_, ?_⟩
  · intro eng r h
    unfold Engine.checkDataSize
    rw [if_pos h]
  · intro eng sv h
    unfold Engine.checkDataSize
    by_cases hsum : eng.maxStringSize + eng.maxArraySize + eng.maxMapSize = 0
    · rw [if_pos hsum]
    · rw [if_neg hsum]
      dsimp only
      rw [if_neg (by simp [h])]
  · intro eng vs h
    unfold Engine.checkDataSize
    by_cases hsum : eng.maxStringSize + eng.maxArraySize + eng.maxMapSize = 0
    · rw [if_pos hsum]
    · rw [if_neg hsum]
      dsimp only
      rw [if_neg (by simp [h])]
  · intro eng m h
    unfold Engine.checkDataSize
    by_cases hsum : eng.maxStringSize + eng.maxArraySize + eng.maxMapSize = 0
    · rw [if_pos hsum]
    · rw [if_neg hsum]
      dsimp only
      rw [if_neg (by simp [h])]
  · intro eng v hs ha hm
    unfold Engine.checkDataSize
    by_cases hsum : eng.maxStringSize + eng.maxArraySize + eng.maxMapSize = 0
    · rw [if_pos hsum]
    · rw [if_neg hsum]
      dsimp only
      cases v <;> first
        | (exact absurd rfl (hs _))
        | (exact absurd rfl (ha _))
        | (exact absurd rfl (hm _))
        | rfl
  · intro eng vs h h2 h3
    unfold Engine.checkDataSize
    rw [if_neg (by omega)]
    dsimp only
    rw [if_pos (by simpa using h), calcSize_third_arr vs,
      if_neg (by omega), if_neg (by omega), if_neg (by omega)]
  · intro eng vs h h2
    unfold Engine.checkDataSize
    rw [if_neg (by omega)]
    dsimp only
    rw [if_pos (by simpa using h), calcSize_third_arr vs,
      if_neg (by omega), if_pos h2]
  · intro eng vs h h2 h3
    unfold Engine.checkDataSize
    rw [if_neg (by omega)]
    dsimp only
    rw [if_pos (by simpa using h), calcSize_third_arr vs,
      if_neg (by omega), if_neg (by omega), if_pos h3]
  · intro eng sv h h2
    unfold Engine.checkDataSize
    rw [if_neg (by omega)]
    dsimp only
    have hth : (calcSize (.str sv)).2.2 = sv.length := by simp [calcSize]
    rw [if_pos (by simpa using h), hth, if_pos h2]

/-- C8 (amended) at concrete inputs: with `max_array_size = 4`, the
five-element array literal `[1,2,3,4,5]` fails
`DataTooLarge("Size of array", 4, 5)`, both at the governor and through the
evaluator, while a three-element array passes. -/
theorem c8_check_data_size_witness :
    engW4.checkDataSize (.ok (.array [.int 1, .int 2, .int 3, .int 4,
        .int 5])) =
      .error (.dataTooLarge "Size of array" 4 5) ∧
    (evalExpr engW4 30 sW
        (.arrayC [.intC 1, .intC 2, .intC 3, .intC 4, .intC 5])).map
        (fun p => p.1) =
      some (.error (.dataTooLarge "Size of array" 4 5)) ∧
    engW4.checkDataSize (.ok (.array [.int 1, .int 2, .int 3])) =
      .ok (.array [.int 1, .int 2, .int 3]) := by
  have hc := c8_check_data_size
  have hcs5 : calcSize (.array [.int 1, .int 2, .int 3, .int 4, .int 5]) =
      (5, 0, 0) := by simp [calcSize]
  have hcs3 : calcSize (.array [.int 1, .int 2, .int 3]) = (3, 0, 0) := by
    simp [calcSize]
  have hbig := hc.2.2.2.2.2.2.2.1 engW4
    [.int 1, .int 2, .int 3, .int 4, .int 5] (by decide)
    (by rw [hcs5]; decide)
  rw [hcs5] at hbig
  have hlink : evalExpr engW4 30 sW
      (.arrayC [.intC 1, .intC 2, .intC 3, .intC 4, .intC 5]) =
      some (engW4.checkDataSize (.ok (.array [.int 1, .int 2, .int 3,
        .int 4, .int 5])), ⟨[], [], ⟨false, 0, 6, 0⟩, none⟩) := rfl
  refine ⟨hbig.trans rfl, ?_, ?_⟩
  · rw [hlink, hbig]
    rfl
  · exact hc.2.2.2.2.2.2.1 engW4 [.int 1, .int 2, .int 3] (by decide)
      (by rw [hcs3]; decide) (by rw [hcs3]; decide)

end Rhai

namespace Rhai

/-- A context whose scope holds the constant `K = 1`. -/
def sK : EState :=
  ⟨[⟨"K", .constant, none, .int 1⟩], [], ⟨false, 0, 0, 0⟩, none⟩

/-- A context whose scope holds the constant `K = [1]`. -/
def sKA : EState :=
  ⟨[⟨"K", .constant, none, .array [.int 1]⟩], [], ⟨false, 0, 0, 0⟩, none⟩

/-- C4: assignment into a constant never silently succeeds and leaves the
slot's value unchanged: (i) any assignment expression preserves the name,
type and value of every constant slot present at entry; (ii) a
bare-variable assignment whose name resolves to a Constant slot fails
`AssignmentToConstant` with that name, for every assignment operator;
(iii) an index-chain assignment whose variable base resolves to a Constant
slot fails `AssignmentToConstant` with the base name; and (iv) an
assignment into any other constant expression fails `AssignmentToConstant`
with the expression's display string. -/
theorem c4_assignment_to_constant :
    (∀ (eng : Engine) (fuel : Nat) (s : EState) (lhs : Expr) (op : String)
        (rhs : Expr) (r : Except EvalErr Dyn) (s2 : EState),
      evalExpr eng fuel s (.assignment lhs op rhs) = some (r, s2) →
      ∀ (i : Nat) (e : ScopeEntry), s.scope[i]? = some e →
        e.typ = .constant →
        ∃ e2, s2.scope[i]? = some e2 ∧ e2.name = e.name ∧
          e2.typ = .constant ∧ e2.val = e.val) ∧
    (∀ (eng : Engine) (n : Nat) (s : EState) (name : String)
        (k : Option Nat) (op : String) (rhs : Expr) (st0 : State) (rv : Dyn)
        (s1 : EState) (i : Nat) (en : ScopeEntry) (st2 : State),
      eng.incOperations s.st = (st0, none) →
      evalExpr eng n { s with st := st0 } rhs = some (.ok rv, s1) →
      searchScopeOnly s1.scope s1.st s1.thisPtr name k = .ok (.slot i en) →
      en.typ = .constant →
      eng.incOperations s1.st = (st2, none) →
      evalExpr eng (n+2) s (.assignment (.var name k) op rhs) =
        some (.error (.assignmentToConstant name), { s1 with st := st2 })) ∧
    (∀ (eng : Engine) (n : Nat) (s : EState) (name : String)
        (k : Option Nat) (b : Expr) (rhs : Expr) (st0 : State) (rv : Dyn)
        (s1 : EState) (ivs : List Dyn) (s2x : EState) (st2 : State) (i : Nat)
        (en : ScopeEntry),
      eng.incOperations s.st = (st0, none) →
      evalExpr eng (n+1) { s with st := st0 } rhs = some (.ok rv, s1) →
      collectIdxVals eng n s1 b = some (.ok ivs, s2x) →
      eng.incOperations s2x.st = (st2, none) →
      searchScopeOnly s2x.scope st2 s2x.thisPtr name k = .ok (.slot i en) →
      en.typ = .constant →
      evalExpr eng (n+3) s (.assignment (.index (.var name k) b) "" rhs) =
        some (.error (.assignmentToConstant name),
          { s2x with st := st2 })) ∧
    (∀ (eng : Engine) (n : Nat) (s : EState) (lhs : Expr) (rhs : Expr)
        (st0 : State) (rv : Dyn) (s1 : EState),
      lhs.isConstant = true →
      (∀ nm kk, lhs ≠ .var nm kk) →
      (∀ a b, lhs ≠ .index a b) →
      eng.incOperations s.st = (st0, none) →
      evalExpr eng n { s with st := st0 } rhs = some (.ok rv, s1) →
      evalExpr eng (n+2) s (.assignment lhs "" rhs) =
        some (.error (.assignmentToConstant lhs.getConstantStr), s1)) := by
  refine ⟨?_, ?_, ?_, ?_⟩
  · intro eng fuel s lhs op rhs r s2 h i e hi hconst2
    have hstep := (invAll fuel).2.2.2.2.2.1 eng s (.assignment lhs op rhs)
      r s2 h
    obtain ⟨e2, he2, hname, htyp2, hval⟩ := hstep.1.entries i e hi
    exact ⟨e2, he2, hname, by rw [htyp2, hconst2], hval hconst2⟩
  · intro eng n s name k op rhs st0 rv s1 i en st2 hgov hrhs hsearch htyp
      hgov2
    rw [evalExpr, hgov]
    simp only
    rw [evalAssignment, hrhs]
    simp only
    rw [hsearch]
    simp only
    rw [hgov2]
    simp only
    rw [htyp]
    simp only [wrapCds]
    rw [cds_error]
  · intro eng n s name k b rhs st0 rv s1 ivs s2x st2 i en hgov hrhs hcoll
      hgov2 hsearch htyp
    rw [evalExpr, hgov]
    simp only
    rw [evalAssignment, hrhs]
    simp only
    rw [if_pos trivial]
    simp only
    rw [evalDotIndexChain, hcoll]
    simp only
    rw [hgov2]
    simp only
    rw [hsearch]
    simp only
    rw [htyp]
    simp only [wrapCds]
    rw [cds_error]
  · intro eng n s lhs rhs st0 rv s1 hconst hvar hindex hgov hrhs
    rw [evalExpr, hgov]
    simp only
    rw [evalAssignment, hrhs]
    simp only
    cases lhs
    all_goals first
      | (exact absurd rfl (hvar _ _))
      | (exact absurd rfl (hindex _ _))
      | (rw [if_pos trivial]
         simp [hconst, wrapCds, cds_error])

/-- C4 at concrete inputs: with `const K = 1`, the bare assignment `K = 2`
fails `AssignmentToConstant("K")` and the slot keeps its value; with
`const K = [1]`, the chain assignment `K[0] = 9` fails
`AssignmentToConstant("K")`; and the constant-expression assignment
`1 = 2` fails `AssignmentToConstant("1")`. -/
theorem c4_assignment_to_constant_witness :
    evalExpr engW 30 sK (.assignment (.var "K" none) "" (.intC 2)) =
      some (.error (.assignmentToConstant "K"),
        ⟨[⟨"K", .constant, none, .int 1⟩], [], ⟨false, 0, 3, 0⟩, none⟩) ∧
    (∃ e2, (⟨[⟨"K", .constant, none, .int 1⟩], [], ⟨false, 0, 3, 0⟩, none⟩ :
        EState).scope[0]? = some e2 ∧ e2.name = "K" ∧
      e2.typ = .constant ∧ e2.val = .int 1) ∧
    evalExpr engW 30 sKA
        (.assignment (.index (.var "K" none) (.intC 0)) "" (.intC 9)) =
      some (.error (.assignmentToConstant "K"),
        ⟨[⟨"K", .constant, none, .array [.int 1]⟩], [],
          ⟨false, 0, 5, 0⟩, none⟩) ∧
    evalExpr engW 30 sW (.assignment (.intC 1) "" (.intC 2)) =
      some (.error (.assignmentToConstant "1"),
        ⟨[], [], ⟨false, 0, 2, 0⟩, none⟩) := by
  have hc := c4_assignment_to_constant
  have hb := hc.2.1 engW 28 sK "K" none "" (.intC 2) ⟨false, 0, 1, 0⟩
    (.int 2) ⟨[⟨"K", .constant, none, .int 1⟩], [], ⟨false, 0, 2, 0⟩, none⟩
    0 ⟨"K", .constant, none, .int 1⟩ ⟨false, 0, 3, 0⟩
    rfl rfl rfl rfl rfl
  have hcc := hc.2.2.1 engW 27 sKA "K" none (.intC 0) (.intC 9)
    ⟨false, 0, 1, 0⟩ (.int 9)
    ⟨[⟨"K", .constant, none, .array [.int 1]⟩], [], ⟨false, 0, 2, 0⟩, none⟩
    [.int 0]
    ⟨[⟨"K", .constant, none, .array [.int 1]⟩], [], ⟨false, 0, 4, 0⟩, none⟩
    ⟨false, 0, 5, 0⟩ 0 ⟨"K", .constant, none, .array [.int 1]⟩
    rfl rfl rfl rfl rfl rfl
  have hd := hc.2.2.2 engW 28 sW (.intC 1) (.intC 2) ⟨false, 0, 1, 0⟩
    (.int 2) ⟨[], [], ⟨false, 0, 2, 0⟩, none⟩ (by simp [Expr.isConstant])
    (fun nm kk h => Expr.noConfusion h)
    (fun a b h => Expr.noConfusion h) rfl rfl
  have ha := hc.1 engW 30 sK (.var "K" none) "" (.intC 2) _ _ hb 0
    ⟨"K", .constant, none, .int 1⟩ rfl rfl
  exact ⟨hb, ha, hcc, hd.trans rfl⟩

end Rhai
